import Mathlib

/-!
Verification of core claims about the `os-in-rust` kernel.

Shallow embedding conventions:
* Machine integers (`u16`, `u32`, `u64`, `usize`) are modelled as `Nat`.
  Where Rust release-mode arithmetic wraps, the wrap is explicit
  (`wrap16`, `wrap64`); `saturating_add`/`saturating_sub` are modelled by
  `satAdd64` and by truncated `Nat` subtraction (which is exactly
  saturating subtraction on naturals).
* Rust `assert!` conditions are modelled as explicit predicates
  (`Time.valid`, `regionAddOk`); a theorem that such a predicate always
  holds states that the corresponding assertion never panics.
* Heap pointers are modelled as natural-number addresses; linked
  structures (free lists, block lists, ready queues, the alarm heap) are
  modelled as Lean lists.  `BinaryHeap<Reverse<Alarm>>` is modelled as a
  list kept sorted by trigger time (the heap pops a minimal element;
  elements that compare equal have equal trigger times, so the pop order
  is exactly that of the sorted list).  `slice::sort_unstable` is
  modelled by insertion sort: the order used (`entryLe`) is total and
  antisymmetric, so every correct sort produces the same output list.
-/

set_option maxHeartbeats 2000000
set_option linter.unusedVariables false
set_option linter.unreachableTactic false
set_option linter.unusedTactic false

namespace OsSpec

/-! ### Alignment helpers, from `src/kernel/src/memory/mod.rs` -/

/-- `is_aligned` from `memory/mod.rs`. -/
def isAligned (value bytes : Nat) : Bool := value % bytes == 0

/-- `align_down` from `memory/mod.rs`: `value - value % bytes`. -/
def alignDown (value bytes : Nat) : Nat := value - value % bytes

/-- `align_up` from `memory/mod.rs`: adds `bytes - value % bytes` when misaligned. -/
def alignUp (value bytes : Nat) : Nat :=
  if value % bytes = 0 then value else value + (bytes - value % bytes)

/-! ### `Time`, from `src/kernel/src/time/mod.rs` -/

/-- Wrapping `u16` arithmetic result. -/
def wrap16 (n : Nat) : Nat := n % 65536

/-- Wrapping `u64` arithmetic result. -/
def wrap64 (n : Nat) : Nat := n % 18446744073709551616

/-- `u64::saturating_add`. -/
def satAdd64 (a b : Nat) : Nat := min (a + b) 18446744073709551615

/-- The `Time` struct: `secs: u64, ms: u16, us: u16, ns: u16`. -/
structure Time where
  secs : Nat
  ms : Nat
  us : Nat
  ns : Nat
deriving DecidableEq, Repr

/-- The assertion checked by `Time::new`: every sub-second field is below 1000.
A `Time` value built by `Time::new` without panicking satisfies this. -/
def Time.valid (t : Time) : Prop := t.ms < 1000 ∧ t.us < 1000 ∧ t.ns < 1000

instance (t : Time) : Decidable t.valid := by unfold Time.valid; infer_instance

/-- `Time::from_ms`: `Time::new(ms/1000, (ms%1000) as u16, 0, 0)`. -/
def Time.from_ms (ms : Nat) : Time := ⟨ms / 1000, ms % 1000, 0, 0⟩

/-- `impl Add for Time` from `time/mod.rs`.  Each `u16` addition is modelled
with an explicit wrap; `div_rem` by 1000 is `/`, `%`. -/
def Time.add (a b : Time) : Time :=
  let nsSum := wrap16 (a.ns + b.ns)
  let usInc := nsSum / 1000
  let ns := nsSum % 1000
  let usSum := wrap16 (wrap16 (a.us + b.us) + usInc)
  let msInc := usSum / 1000
  let us := usSum % 1000
  let msSum := wrap16 (wrap16 (a.ms + b.ms) + msInc)
  let secsInc := msSum / 1000
  let ms := msSum % 1000
  ⟨satAdd64 (satAdd64 a.secs b.secs) secsInc, ms, us, ns⟩

/-- One level of `impl Sub for Time`: the source computes
`sub_over(lhs, rhs) = (lhs.saturating_sub(rhs), rhs.saturating_sub(lhs))`
and, when the second component is positive, replaces the field by
`1000 - over` and sets the overflow (borrow) flag.  `Nat` subtraction is
exactly saturating subtraction; the pair returned is `(field, borrow)`. -/
def subStep (l r : Nat) : Nat × Nat :=
  if 0 < r - l then (1000 - (r - l), 1) else (l - r, 0)

/-- `impl Sub for Time` from `time/mod.rs`: borrow chain over ns, us, ms;
the borrow added to the next `u16` field wraps, the final `u64` addition
`rhs.secs + overflow` wraps, and the seconds subtraction saturates. -/
def Time.sub (a b : Time) : Time :=
  let n := subStep a.ns b.ns
  let u := subStep a.us (wrap16 (b.us + n.2))
  let m := subStep a.ms (wrap16 (b.ms + u.2))
  ⟨a.secs - wrap64 (b.secs + m.2), m.1, u.1, n.1⟩

/-- Linear characterisation of `subStep` for in-range operands. -/
theorem subStep_spec (l r : Nat) (hr : r ≤ 1000 + l) :
    ∃ x o, subStep l r = (x, o) ∧ x + r = l + 1000 * o ∧ o ≤ 1 ∧ (r ≤ l ↔ o = 0) := by
  by_cases h : 0 < r - l
  · refine ⟨1000 - (r - l), 1, ?_, by omega, by omega, by omega⟩
    simp only [subStep]
    rw [if_pos h]
  · refine ⟨l - r, 0, ?_, by omega, by omega, by omega⟩
    simp only [subStep]
    rw [if_neg h]

/-- The seconds carry (`secs_inc`) produced while computing `a + b`. -/
def Time.addCarry (a b : Time) : Nat :=
  wrap16 (wrap16 (a.ms + b.ms) +
    wrap16 (wrap16 (a.us + b.us) + wrap16 (a.ns + b.ns) / 1000) / 1000) / 1000

/-- `a + b` saturates no field iff the true seconds sum fits in a `u64`
(the sub-second fields use wrapping, not saturating, arithmetic). -/
def Time.addNoSat (a b : Time) : Prop :=
  a.secs + b.secs + Time.addCarry a b ≤ 18446744073709551615

instance (a b : Time) : Decidable (a.addNoSat b) := by
  unfold Time.addNoSat; infer_instance

/-- C10: for `Time` values whose sub-second fields are below 1000 (i.e. that
satisfy the `Time::new` assertion), `a + b` and `a - b` again have every
sub-second field below 1000 — so the assertion in `Time::new` never panics on
the results — and every intermediate `u16` addition stays below `2^16`
(the listed bounds cover each `u16` sum computed by `add` and `sub`, since
the carry/borrow terms are at most 1). -/
theorem time_add_sub_safe (a b : Time) (ha : a.valid) (hb : b.valid) :
    (a.add b).valid ∧ (a.sub b).valid ∧
    a.ns + b.ns < 65536 ∧ a.us + b.us + 1 < 65536 ∧ a.ms + b.ms + 1 < 65536 ∧
    b.us + 1 < 65536 ∧ b.ms + 1 < 65536 := by
  obtain ⟨ha1, ha2, ha3⟩ := ha
  obtain ⟨hb1, hb2, hb3⟩ := hb
  refine ⟨?_, ?_, by omega, by omega, by omega, by omega, by omega⟩
  · simp only [Time.add, Time.valid, wrap16, satAdd64]
    omega
  · simp only [Time.sub]
    obtain ⟨x1, o1, e1, hx1, ho1, hio1⟩ := subStep_spec a.ns b.ns (by omega)
    rw [e1]
    dsimp only
    have w1 : wrap16 (b.us + o1) = b.us + o1 := by unfold wrap16; omega
    rw [w1]
    obtain ⟨x2, o2, e2, hx2, ho2, hio2⟩ := subStep_spec a.us (b.us + o1) (by omega)
    rw [e2]
    dsimp only
    have w2 : wrap16 (b.ms + o2) = b.ms + o2 := by unfold wrap16; omega
    rw [w2]
    obtain ⟨x3, o3, e3, hx3, ho3, hio3⟩ := subStep_spec a.ms (b.ms + o2) (by omega)
    rw [e3]
    simp only [Time.valid]
    omega

/-- Witness for `time_add_sub_safe` at concrete valid inputs. -/
theorem time_add_sub_safe_witness :
    ((⟨1, 999, 500, 750⟩ : Time).add ⟨2, 3, 600, 900⟩).valid ∧
    ((⟨1, 999, 500, 750⟩ : Time).sub ⟨2, 3, 600, 900⟩).valid ∧
    (999 : Nat) + 750 - 750 + 900 - 900 = 999 := by
  have h := time_add_sub_safe ⟨1, 999, 500, 750⟩ ⟨2, 3, 600, 900⟩
    (by decide) (by decide)
  exact ⟨h.1, h.2.1, by decide⟩

/-- For valid operands the `u16` wraps in `Time.add` are the identity, so the
sum takes this normal form. -/
theorem time_add_eq (a b : Time) (ha : a.valid) (hb : b.valid) :
    a.add b = ⟨satAdd64 (satAdd64 a.secs b.secs)
        ((a.ms + b.ms + (a.us + b.us + (a.ns + b.ns) / 1000) / 1000) / 1000),
      (a.ms + b.ms + (a.us + b.us + (a.ns + b.ns) / 1000) / 1000) % 1000,
      (a.us + b.us + (a.ns + b.ns) / 1000) % 1000,
      (a.ns + b.ns) % 1000⟩ := by
  obtain ⟨ha1, ha2, ha3⟩ := ha
  obtain ⟨hb1, hb2, hb3⟩ := hb
  obtain ⟨as, ams, aus, ans⟩ := a
  obtain ⟨bs, bms, bus, bns⟩ := b
  simp only at ha1 ha2 ha3 hb1 hb2 hb3
  simp only [Time.add, wrap16, Time.mk.injEq]
  have h1 : (ans + bns) % 65536 = ans + bns := by omega
  rw [h1]
  have h2 : (aus + bus) % 65536 = aus + bus := by omega
  rw [h2]
  have h3 : (aus + bus + (ans + bns) / 1000) % 65536 = aus + bus + (ans + bns) / 1000 := by
    omega
  rw [h3]
  have h4 : (ams + bms) % 65536 = ams + bms := by omega
  rw [h4]
  have h5 : (ams + bms + (aus + bus + (ans + bns) / 1000) / 1000) % 65536 =
      ams + bms + (aus + bus + (ans + bns) / 1000) / 1000 := by omega
  rw [h5]
  exact ⟨rfl, rfl, rfl, rfl⟩

/-- C8: `Time::from_ms(k*1000+m)` with `m < 1000` (and the argument a
representable `u64`) equals `Time{secs: k, ms: m, us: 0, ns: 0}`, and
`(a + b) - b = a` whenever no field saturates during the addition
(only the seconds field saturates; `Time.addNoSat` states that it does not). -/
theorem time_from_ms_and_add_sub_cancel (k m : Nat) (a b : Time)
    (hm : m < 1000) (hrep : k * 1000 + m < 18446744073709551616)
    (ha : a.valid) (hb : b.valid) (hsat : a.addNoSat b) :
    Time.from_ms (k * 1000 + m) = ⟨k, m, 0, 0⟩ ∧ (a.add b).sub b = a := by
  have hadd := time_add_eq a b ha hb
  obtain ⟨ha1, ha2, ha3⟩ := ha
  obtain ⟨hb1, hb2, hb3⟩ := hb
  unfold Time.addNoSat Time.addCarry wrap16 at hsat
  constructor
  · unfold Time.from_ms
    have h1 : (k * 1000 + m) / 1000 = k := by omega
    have h2 : (k * 1000 + m) % 1000 = m := by omega
    rw [h1, h2]
  · rw [hadd]
    obtain ⟨as, ams, aus, ans⟩ := a
    obtain ⟨bs, bms, bus, bns⟩ := b
    simp only at ha1 ha2 ha3 hb1 hb2 hb3 hsat ⊢
    have hsat2 : as + bs + (ams + bms + (aus + bus + (ans + bns) / 1000) / 1000) / 1000 ≤
        18446744073709551615 := by omega
    have hs1 : satAdd64 as bs = as + bs := by
      simp only [satAdd64]; omega
    have hs2 : satAdd64 (as + bs)
        ((ams + bms + (aus + bus + (ans + bns) / 1000) / 1000) / 1000) =
        as + bs + (ams + bms + (aus + bus + (ans + bns) / 1000) / 1000) / 1000 := by
      simp only [satAdd64]; omega
    rw [hs1, hs2]
    generalize hN : (ans + bns) % 1000 = N
    generalize hU : (aus + bus + (ans + bns) / 1000) % 1000 = U
    generalize hM : (ams + bms + (aus + bus + (ans + bns) / 1000) / 1000) % 1000 = M
    generalize hC : (ams + bms + (aus + bus + (ans + bns) / 1000) / 1000) / 1000 = C
    rw [hC] at hsat2
    simp only [Time.sub]
    obtain ⟨x1, o1, e1, hx1, ho1, hio1⟩ := subStep_spec N bns (by omega)
    rw [e1]
    dsimp only
    have w1 : wrap16 (bus + o1) = bus + o1 := by unfold wrap16; omega
    rw [w1]
    obtain ⟨x2, o2, e2, hx2, ho2, hio2⟩ := subStep_spec U (bus + o1) (by omega)
    rw [e2]
    dsimp only
    have w2 : wrap16 (bms + o2) = bms + o2 := by unfold wrap16; omega
    rw [w2]
    obtain ⟨x3, o3, e3, hx3, ho3, hio3⟩ := subStep_spec M (bms + o2) (by omega)
    rw [e3]
    simp only [wrap64, Time.mk.injEq]
    omega

/-- Witness for `time_from_ms_and_add_sub_cancel` at concrete inputs. -/
theorem time_from_ms_and_add_sub_cancel_witness :
    Time.from_ms (7 * 1000 + 123) = ⟨7, 123, 0, 0⟩ ∧
    ((⟨4, 900, 950, 990⟩ : Time).add ⟨5, 200, 100, 20⟩).sub ⟨5, 200, 100, 20⟩ =
      ⟨4, 900, 950, 990⟩ :=
  time_from_ms_and_add_sub_cancel 7 123 ⟨4, 900, 950, 990⟩ ⟨5, 200, 100, 20⟩
    (by decide) (by decide) (by decide) (by decide) (by decide)

/-! ### E820 memory map, from `src/kernel/src/memory/e820_memory_map.rs` -/

/-- `MemoryMapRegionType::Ram as u32` (the enum starts at 1). -/
def ramType : Nat := 1

/-- `MemoryMapRegionType::Reserved as u32`. -/
def reservedType : Nat := 2

/-- `MemoryMapEntry`: `base: u64, length: u64, region_type: u32,
extended_attributes: u32`.  `MemoryMapEntry::new` always sets
`extended_attributes = 1`. -/
structure MemoryMapEntry where
  base : Nat
  length : Nat
  region_type : Nat
  extended_attributes : Nat
deriving DecidableEq, Repr

/-- The derived `Ord` on the packed `MemoryMapEntry` struct: lexicographic on
`(base, length, region_type, extended_attributes)`.  `MemoryMap::sort` sorts by
this order, hence primarily by ascending base. -/
def entryLe (a b : MemoryMapEntry) : Prop :=
  a.base < b.base ∨ (a.base = b.base ∧ (a.length < b.length ∨ (a.length = b.length ∧
    (a.region_type < b.region_type ∨ (a.region_type = b.region_type ∧
      a.extended_attributes ≤ b.extended_attributes)))))

instance : DecidableRel entryLe := fun a b => by unfold entryLe; infer_instance

instance : IsTotal MemoryMapEntry entryLe := ⟨by intro a b; unfold entryLe; omega⟩

instance : IsTrans MemoryMapEntry entryLe := ⟨by intro a b c; unfold entryLe; omega⟩

/-- `MemoryRegion::is_within(base, length)` from `memory/mod.rs`:
`base >= self.base && base + length <= self.base + self.length`
(arguments in the order region-base, region-length, query-base, query-length). -/
def isWithinB (rbase rlen base len : Nat) : Bool :=
  decide (rbase ≤ base ∧ base + len ≤ rbase + rlen)

/-- Whether a map entry's region contains `[base, base+len)`, as tested by the
search loop in `e820_memory_map::init` via `MemoryRegion::from_e820_entry`. -/
def entryContains (e : MemoryMapEntry) (base len : Nat) : Bool :=
  isWithinB e.base e.length base len

/-- Split a list at the first element satisfying `p` (the index search loop of
`e820_memory_map::init`): returns the prefix before it, the element, and the
suffix after it. -/
def findSplit (p : α → Bool) : List α → Option (List α × α × List α)
  | [] => none
  | x :: xs =>
    if p x then some ([], x, xs)
    else
      match findSplit p xs with
      | some (s, e, t) => some (x :: s, e, t)
      | none => none

/-- The up-to-three entries that replace the entry containing the kernel image:
optional pre-image Ram entry, the image entry re-typed to Reserved in place
(keeping the original `extended_attributes`), and optional post-image Ram
entry.  `MemoryMapEntry::new` sets `extended_attributes = 1` on the new
entries.  `MemoryMap::add_entry` inserts them adjacent to the original
position, which is the list `s ++ kernelPieces e kb kl ++ t`. -/
def kernelPieces (e : MemoryMapEntry) (kb kl : Nat) : List MemoryMapEntry :=
  (if e.base < kb then [⟨e.base, kb - e.base, ramType, 1⟩] else []) ++
    [⟨kb, kl, reservedType, e.extended_attributes⟩] ++
    (if kb + kl < e.base + e.length then
      [⟨kb + kl, e.base + e.length - (kb + kl), ramType, 1⟩] else [])

/-- The 4 KiB alignment pass applied to every Ram entry
(`iter_mut_usable` filters on `region_type == Ram`): base aligned up,
length aligned down, both to `FrameSize::FourKb.to_bytes() = 0x1000`. -/
def alignEntry (e : MemoryMapEntry) : MemoryMapEntry :=
  if e.region_type = ramType then
    ⟨alignUp e.base 4096, alignDown e.length 4096, e.region_type, e.extended_attributes⟩
  else e

/-- `e820_memory_map::init`: locate the first entry containing the image,
replace it in place by `kernelPieces`, sort the whole map by the derived
entry order, then 4 KiB-align every Ram entry.  `sort_unstable` is modelled
by insertion sort: `entryLe` is total, transitive and antisymmetric, so any
correct sort yields this exact list.  `None` models the `Err` return. -/
def e820Init (entries : List MemoryMapEntry) (kb kl : Nat) :
    Option (List MemoryMapEntry) :=
  match findSplit (fun e => entryContains e kb kl) entries with
  | none => none
  | some (s, e, t) =>
    some ((List.insertionSort entryLe (s ++ kernelPieces e kb kl ++ t)).map alignEntry)

/-- Two map entries describe disjoint byte ranges. -/
def entryDisjoint (a b : MemoryMapEntry) : Prop :=
  a.base + a.length ≤ b.base ∨ b.base + b.length ≤ a.base

instance : DecidableRel entryDisjoint := fun a b => by unfold entryDisjoint; infer_instance

theorem entryDisjoint_symm : ∀ {x y}, entryDisjoint x y → entryDisjoint y x := by
  intro x y h
  unfold entryDisjoint at *
  omega

theorem entryLe_base {a b : MemoryMapEntry} (h : entryLe a b) : a.base ≤ b.base := by
  unfold entryLe at h
  omega

theorem alignUp_ge (v b : Nat) : v ≤ alignUp v b := by
  unfold alignUp
  split <;> omega

theorem alignUp_id {v : Nat} (h : v % 4096 = 0) : alignUp v 4096 = v := by
  unfold alignUp
  rw [if_pos h]

theorem alignDown_id {v : Nat} (h : v % 4096 = 0) : alignDown v 4096 = v := by
  unfold alignDown
  omega

theorem alignDown_le (v b : Nat) : alignDown v b ≤ v := by
  unfold alignDown
  omega

theorem alignUp_le {v m : Nat} (hv : v ≤ m) (hm : m % 4096 = 0) : alignUp v 4096 ≤ m := by
  unfold alignUp
  split <;> omega

theorem alignUp_mod (v : Nat) : alignUp v 4096 % 4096 = 0 := by
  unfold alignUp
  split <;> omega

theorem alignDown_mod (v : Nat) : alignDown v 4096 % 4096 = 0 := by
  unfold alignDown
  omega

theorem align_split (s m : Nat) (hm : m % 4096 = 0) (hs : s ≤ m) :
    alignUp s 4096 + alignDown (m - s) 4096 = m := by
  unfold alignUp alignDown
  split <;> omega

theorem alignEntry_type (x : MemoryMapEntry) :
    (alignEntry x).region_type = x.region_type := by
  unfold alignEntry
  split <;> rfl

theorem alignEntry_base_ge (x : MemoryMapEntry) : x.base ≤ (alignEntry x).base := by
  unfold alignEntry
  split
  · exact alignUp_ge _ _
  · exact Nat.le_refl _

theorem alignEntry_not_ram {x : MemoryMapEntry} (h : ¬ x.region_type = ramType) :
    alignEntry x = x := by
  unfold alignEntry
  rw [if_neg h]

theorem alignEntry_ram_mk (b l a : Nat) :
    alignEntry ⟨b, l, ramType, a⟩ = ⟨alignUp b 4096, alignDown l 4096, ramType, a⟩ := by
  unfold alignEntry
  rw [if_pos rfl]

theorem alignEntry_aligned {x : MemoryMapEntry} (h1 : x.base % 4096 = 0)
    (h2 : x.length % 4096 = 0) : alignEntry x = x := by
  obtain ⟨b, l, r, a⟩ := x
  unfold alignEntry
  split
  · simp only at h1 h2
    rw [alignUp_id h1, alignDown_id h2]
  · rfl

theorem findSplit_eq {p : α → Bool} : ∀ {l : List α} {s : List α} {e : α} {t : List α},
    findSplit p l = some (s, e, t) →
      l = s ++ e :: t ∧ p e = true ∧ ∀ x ∈ s, p x = false
  | [], s, e, t, h => by simp [findSplit] at h
  | x :: xs, s, e, t, h => by
    unfold findSplit at h
    by_cases hx : p x
    · rw [if_pos hx] at h
      obtain ⟨rfl, rfl, rfl⟩ : s = [] ∧ x = e ∧ xs = t := by
        simpa using h
      simp [hx]
    · rw [if_neg hx] at h
      cases hfs : findSplit p xs with
      | none => rw [hfs] at h; simp at h
      | some v =>
        obtain ⟨s', e', t'⟩ := v
        rw [hfs] at h
        obtain ⟨rfl, rfl, rfl⟩ : x :: s' = s ∧ e' = e ∧ t' = t := by
          simpa using h
        obtain ⟨h1, h2, h3⟩ := findSplit_eq hfs
        refine ⟨by rw [h1]; rfl, h2, ?_⟩
        intro y hy
        rcases List.mem_cons.1 hy with rfl | hy'
        · simpa using hx
        · exact h3 y hy'

theorem findSplit_isSome {p : α → Bool} : ∀ {l : List α}, (∃ x ∈ l, p x = true) →
    ∃ s e t, findSplit p l = some (s, e, t)
  | [], h => by simp at h
  | x :: xs, h => by
    unfold findSplit
    by_cases hx : p x
    · exact ⟨[], x, xs, by rw [if_pos hx]⟩
    · obtain ⟨y, hy, hpy⟩ := h
      rcases List.mem_cons.1 hy with rfl | hy'
      · exact absurd hpy hx
      · obtain ⟨s, e, t, hfs⟩ := findSplit_isSome ⟨y, hy', hpy⟩
        exact ⟨x :: s, e, t, by rw [if_neg hx, hfs]⟩

theorem contains_unique {l : List MemoryMapEntry} (hd : l.Pairwise entryDisjoint)
    {e1 e2 : MemoryMapEntry} (h1 : e1 ∈ l) (h2 : e2 ∈ l) {kb kl : Nat} (hkl : 0 < kl)
    (hc1 : entryContains e1 kb kl = true) (hc2 : entryContains e2 kb kl = true) :
    e1 = e2 := by
  by_contra hne
  have hD := List.Pairwise.forall (fun {x y} h => entryDisjoint_symm h) hd h1 h2 hne
  unfold entryContains isWithinB at hc1 hc2
  simp only [decide_eq_true_eq] at hc1 hc2
  unfold entryDisjoint at hD
  omega

theorem mem_kernelPieces {e : MemoryMapEntry} {kb kl : Nat} {x : MemoryMapEntry} :
    x ∈ kernelPieces e kb kl ↔
      (e.base < kb ∧ x = ⟨e.base, kb - e.base, ramType, 1⟩) ∨
      x = ⟨kb, kl, reservedType, e.extended_attributes⟩ ∨
      (kb + kl < e.base + e.length ∧
        x = ⟨kb + kl, e.base + e.length - (kb + kl), ramType, 1⟩) := by
  by_cases h1 : e.base < kb <;> by_cases h2 : kb + kl < e.base + e.length <;>
    simp [kernelPieces, h1, h2, List.mem_append] <;> tauto

theorem mem_sort_pieces {s t : List MemoryMapEntry} {e : MemoryMapEntry}
    {kb kl : Nat} {x : MemoryMapEntry} :
    x ∈ List.insertionSort entryLe (s ++ kernelPieces e kb kl ++ t) ↔
      (x ∈ s ∨ x ∈ t) ∨ x ∈ kernelPieces e kb kl := by
  rw [(List.perm_insertionSort entryLe _).mem_iff]
  simp only [List.mem_append]
  tauto

/-- Whether an entry is the byte-exact Reserved entry for the image. -/
def isImageReserved (kb kl : Nat) (x : MemoryMapEntry) : Bool :=
  decide (x.region_type = reservedType ∧ x.base = kb ∧ x.length = kl)

/-- Every element of the sorted pre-alignment list is either untouched by the
alignment pass, or is the pre-image piece, or is the post-image piece. -/
theorem alignEntry_mem_cases (s t : List MemoryMapEntry) (e : MemoryMapEntry)
    (kb kl : Nat)
    (hId : ∀ x, x ∈ s ∨ x ∈ t → alignEntry x = x)
    (hA1 : e.base % 4096 = 0)
    (x : MemoryMapEntry)
    (hx : x ∈ List.insertionSort entryLe (s ++ kernelPieces e kb kl ++ t)) :
    alignEntry x = x ∨
      (x = ⟨e.base, kb - e.base, ramType, 1⟩ ∧
        alignEntry x = ⟨e.base, alignDown (kb - e.base) 4096, ramType, 1⟩) ∨
      (x = ⟨kb + kl, e.base + e.length - (kb + kl), ramType, 1⟩ ∧
        alignEntry x = ⟨alignUp (kb + kl) 4096,
          alignDown (e.base + e.length - (kb + kl)) 4096, ramType, 1⟩) := by
  rcases mem_sort_pieces.1 hx with h | h
  · exact Or.inl (hId x h)
  · rcases mem_kernelPieces.1 h with ⟨h1, rfl⟩ | rfl | ⟨h1, rfl⟩
    · refine Or.inr (Or.inl ⟨rfl, ?_⟩)
      rw [alignEntry_ram_mk, alignUp_id hA1]
    · refine Or.inl (alignEntry_not_ram ?_)
      simp [reservedType, ramType]
    · exact Or.inr (Or.inr ⟨rfl,
        alignEntry_ram_mk (kb + kl) (e.base + e.length - (kb + kl)) 1⟩)

/-- After normalisation exactly one entry is the byte-exact Reserved image
entry. -/
theorem pieces_countP (s t : List MemoryMapEntry) (e : MemoryMapEntry) (kb kl : Nat)
    (hDs : ∀ x ∈ s, entryDisjoint x e) (hDt : ∀ x ∈ t, entryDisjoint x e)
    (hkl : 0 < kl) (hc1 : e.base ≤ kb) (hc2 : kb + kl ≤ e.base + e.length) :
    ((List.insertionSort entryLe (s ++ kernelPieces e kb kl ++ t)).map
      alignEntry).countP (isImageReserved kb kl) = 1 := by
  rw [List.countP_map]
  have hcongr : ∀ x ∈ List.insertionSort entryLe (s ++ kernelPieces e kb kl ++ t),
      (isImageReserved kb kl ∘ alignEntry) x = true ↔ isImageReserved kb kl x = true := by
    intro x hx
    simp only [Function.comp, isImageReserved, decide_eq_true_eq]
    by_cases hram : x.region_type = ramType
    · constructor
      · rintro ⟨h1, -, -⟩
        rw [alignEntry_type] at h1
        rw [hram] at h1
        exact absurd h1 (by decide)
      · rintro ⟨h1, -, -⟩
        rw [hram] at h1
        exact absurd h1 (by decide)
    · rw [alignEntry_not_ram hram]
  rw [List.countP_congr hcongr]
  rw [(List.perm_insertionSort entryLe
    (s ++ kernelPieces e kb kl ++ t)).countP_eq (isImageReserved kb kl)]
  have hs0 : List.countP (isImageReserved kb kl) s = 0 := by
    rw [List.countP_eq_zero]
    intro x hx hpx
    unfold isImageReserved at hpx
    simp only [decide_eq_true_eq] at hpx
    have hD := hDs x hx
    unfold entryDisjoint at hD
    omega
  have ht0 : List.countP (isImageReserved kb kl) t = 0 := by
    rw [List.countP_eq_zero]
    intro x hx hpx
    unfold isImageReserved at hpx
    simp only [decide_eq_true_eq] at hpx
    have hD := hDt x hx
    unfold entryDisjoint at hD
    omega
  have hp1 : List.countP (isImageReserved kb kl) (kernelPieces e kb kl) = 1 := by
    unfold kernelPieces isImageReserved
    by_cases h1 : e.base < kb <;> by_cases h2 : kb + kl < e.base + e.length <;>
      simp [h1, h2, ramType, reservedType]
  rw [List.countP_append, List.countP_append, hs0, ht0, hp1]

/-- After normalisation the entries are sorted by ascending base. -/
theorem pieces_sorted_base (s t : List MemoryMapEntry) (e : MemoryMapEntry) (kb kl : Nat)
    (hDs : ∀ x ∈ s, entryDisjoint x e) (hDt : ∀ x ∈ t, entryDisjoint x e)
    (hId : ∀ x, x ∈ s ∨ x ∈ t → alignEntry x = x)
    (hkl : 0 < kl) (hc1 : e.base ≤ kb) (hc2 : kb + kl ≤ e.base + e.length)
    (hA1 : e.base % 4096 = 0) (hA2 : e.length % 4096 = 0) :
    ((List.insertionSort entryLe (s ++ kernelPieces e kb kl ++ t)).map
      alignEntry).Pairwise (fun a b => a.base ≤ b.base) := by
  rw [List.pairwise_map]
  have hsorted : (List.insertionSort entryLe
      (s ++ kernelPieces e kb kl ++ t)).Pairwise entryLe :=
    List.sorted_insertionSort entryLe _
  refine hsorted.imp_of_mem ?_
  intro a b ha hb hab
  have habBase := entryLe_base hab
  have hbGe := alignEntry_base_ge b
  rcases alignEntry_mem_cases s t e kb kl hId hA1 a ha with hA | ⟨rfl, hEA⟩ | ⟨rfl, hEA⟩
  · rw [hA]
    omega
  · rw [hEA]
    dsimp only at habBase ⊢
    omega
  · rw [hEA]
    dsimp only at habBase ⊢
    have hkey : alignUp (kb + kl) 4096 ≤ e.base + e.length :=
      alignUp_le (by omega) (by omega)
    rcases mem_sort_pieces.1 hb with hb' | hb'
    · have hD : entryDisjoint b e := by
        rcases hb' with h | h
        · exact hDs b h
        · exact hDt b h
      rw [hId b hb']
      unfold entryDisjoint at hD
      omega
    · rcases mem_kernelPieces.1 hb' with ⟨hb1, rfl⟩ | rfl | ⟨hb1, rfl⟩
      · dsimp only at habBase ⊢
        omega
      · dsimp only at habBase ⊢
        omega
      · rw [alignEntry_ram_mk]

/-- After normalisation no two entries overlap. -/
theorem pieces_disjoint (s t : List MemoryMapEntry) (e : MemoryMapEntry) (kb kl : Nat)
    (hDs : ∀ x ∈ s, entryDisjoint x e) (hDt : ∀ x ∈ t, entryDisjoint x e)
    (hPst : (s ++ t).Pairwise entryDisjoint)
    (hId : ∀ x, x ∈ s ∨ x ∈ t → alignEntry x = x)
    (hkl : 0 < kl) (hc1 : e.base ≤ kb) (hc2 : kb + kl ≤ e.base + e.length)
    (hA1 : e.base % 4096 = 0) (hA2 : e.length % 4096 = 0) :
    ((List.insertionSort entryLe (s ++ kernelPieces e kb kl ++ t)).map
      alignEntry).Pairwise entryDisjoint := by
  obtain ⟨hPs, hPt, hCst⟩ := List.pairwise_append.1 hPst
  have hPieces : (kernelPieces e kb kl).Pairwise entryDisjoint := by
    unfold kernelPieces
    by_cases h1 : e.base < kb <;> by_cases h2 : kb + kl < e.base + e.length <;>
      simp [h1, h2, List.pairwise_cons, entryDisjoint] <;> omega
  have hSub : ∀ x ∈ kernelPieces e kb kl,
      e.base ≤ x.base ∧ x.base + x.length ≤ e.base + e.length := by
    intro x hx
    rcases mem_kernelPieces.1 hx with ⟨h, rfl⟩ | rfl | ⟨h, rfl⟩ <;> dsimp only <;> omega
  have hP0 : (s ++ kernelPieces e kb kl ++ t).Pairwise entryDisjoint := by
    rw [List.pairwise_append]
    refine ⟨?_, hPt, ?_⟩
    · rw [List.pairwise_append]
      refine ⟨hPs, hPieces, ?_⟩
      intro a haS b hbP
      have hD := hDs a haS
      have hB := hSub b hbP
      unfold entryDisjoint at *
      omega
    · intro a haSP b hbT
      rcases List.mem_append.1 haSP with haS | haP
      · exact hCst a haS b hbT
      · have hD := hDt b hbT
        have hB := hSub a haP
        unfold entryDisjoint at *
        omega
  have hP1 : (List.insertionSort entryLe
      (s ++ kernelPieces e kb kl ++ t)).Pairwise entryDisjoint :=
    ((List.perm_insertionSort entryLe _).pairwise_iff
      (fun {x y} h => entryDisjoint_symm h)).2 hP0
  rw [List.pairwise_map]
  have hShrink : ∀ x ∈ List.insertionSort entryLe (s ++ kernelPieces e kb kl ++ t),
      x.base ≤ (alignEntry x).base ∧
        (alignEntry x).base + (alignEntry x).length ≤ x.base + x.length := by
    intro x hx
    rcases alignEntry_mem_cases s t e kb kl hId hA1 x hx with hA | ⟨rfl, hEA⟩ | ⟨rfl, hEA⟩
    · rw [hA]
      omega
    · rw [hEA]
      dsimp only
      have := alignDown_le (kb - e.base) 4096
      omega
    · rw [hEA]
      dsimp only
      have h3 := align_split (kb + kl) (e.base + e.length) (by omega) (by omega)
      have h4 := alignUp_ge (kb + kl) 4096
      omega
  refine hP1.imp_of_mem ?_
  intro a b ha hb hD
  have h1 := hShrink a ha
  have h2 := hShrink b hb
  unfold entryDisjoint at *
  omega

/-- The firmware map of scenario S1: `[{0, 0x9FC00, Ram}, {0x100000, 0x7EF0000, Ram}]`
(`extended_attributes = 1`, the value BIOSes report and `new` uses). -/
def c2Input : List MemoryMapEntry := [⟨0, 0x9FC00, 1, 1⟩, ⟨0x100000, 0x7EF0000, 1, 1⟩]

/-- C2 counterexample: normalising the S1 firmware map with image
`(0x100000, 0x200000)` does NOT yield entries covering
`Ram 0..0x9FC00, Reserved 0x100000..0x300000, Ram 0x300000..0x7FF0000`:
the first Ram entry's length is aligned down to 4 KiB, so it covers
`0..0x9F000`, not `0..0x9FC00`. -/
theorem c2_counterexample :
    (e820Init c2Input 0x100000 0x200000).map
        (List.map (fun e => (e.base, e.base + e.length, e.region_type))) ≠
      some [(0, 0x9FC00, ramType), (0x100000, 0x300000, reservedType),
        (0x300000, 0x7FF0000, ramType)] := by
  decide

/-- C2 (amended): normalising the firmware map
`[{0, 0x9FC00, Ram}, {0x100000, 0x7EF0000, Ram}]` with image
`(0x100000, 0x200000)` yields exactly three entries:
`Ram` covering `0..0x9F000` (the `0x9FC00` length is aligned down to a 4 KiB
multiple), `Reserved` covering `0x100000..0x300000`, and `Ram` covering
`0x300000..0x7FF0000`. -/
theorem c2_map_split :
    e820Init c2Input 0x100000 0x200000 =
      some [⟨0, 0x9F000, ramType, 1⟩, ⟨0x100000, 0x200000, reservedType, 1⟩,
        ⟨0x300000, 0x7CF0000, ramType, 1⟩] := by
  decide

/-- A legal (pairwise-disjoint) firmware map with a misaligned Ram entry.
The image `(0x2000, 0x1000)` is fully contained in the third (Ram) entry. -/
def c1Input : List MemoryMapEntry :=
  [⟨0x800, 0x1000, 1, 1⟩, ⟨0x1800, 0x800, 2, 1⟩, ⟨0x2000, 0x3000, 1, 1⟩]

/-- C1 counterexample: for the legal firmware map `c1Input` (entries pairwise
disjoint, image fully contained in a Ram entry) normalisation produces a map
in which two entries OVERLAP: the first Ram entry's base is aligned up from
`0x800` to `0x1000` while its length is only aligned down to `0x1000`, so it
now covers `0x1000..0x2000`, overlapping the Reserved entry at
`0x1800..0x2000`.  Hence the no-overlap (and, by similar inputs, sortedness)
part of the claim fails for misaligned firmware maps. -/
theorem c1_counterexample :
    c1Input.Pairwise entryDisjoint ∧ 0 < 0x1000 ∧
    (∃ eX ∈ c1Input, eX.region_type = ramType ∧ entryContains eX 0x2000 0x1000 = true) ∧
    e820Init c1Input 0x2000 0x1000 =
      some [⟨0x1000, 0x1000, 1, 1⟩, ⟨0x1800, 0x800, 2, 1⟩, ⟨0x2000, 0x1000, 2, 1⟩,
        ⟨0x3000, 0x2000, 1, 1⟩] ∧
    ¬ ([⟨0x1000, 0x1000, 1, 1⟩, ⟨0x1800, 0x800, 2, 1⟩, ⟨0x2000, 0x1000, 2, 1⟩,
        ⟨0x3000, 0x2000, 1, 1⟩] : List MemoryMapEntry).Pairwise entryDisjoint := by
  refine ⟨by decide, by decide, ⟨⟨0x2000, 0x3000, 1, 1⟩, by decide, by decide, by decide⟩,
    by decide, by decide⟩

/-- C1 (amended): for any firmware map whose entries are pairwise disjoint and
whose Ram entries additionally have 4 KiB-aligned base and length, and any
non-empty image range fully contained in some Ram entry, normalisation
succeeds and the result contains exactly one Reserved entry with
`base = image_base` and `length = image_len`; the entries are sorted by base
ascending; no two entries overlap; and every Ram entry's base and length are
4 KiB multiples.  (The alignment hypothesis on the firmware Ram entries is
forced by `c1_counterexample`: without it the alignment pass can create
overlaps.) -/
theorem e820_init_normalises (entries : List MemoryMapEntry) (kb kl : Nat)
    (hdisj : entries.Pairwise entryDisjoint) (hkl : 0 < kl)
    (hram : ∃ eR ∈ entries, eR.region_type = ramType ∧ entryContains eR kb kl = true)
    (halign : ∀ x ∈ entries, x.region_type = ramType →
      x.base % 4096 = 0 ∧ x.length % 4096 = 0) :
    ∃ out, e820Init entries kb kl = some out ∧
      out.countP (isImageReserved kb kl) = 1 ∧
      out.Pairwise (fun a b => a.base ≤ b.base) ∧
      out.Pairwise entryDisjoint ∧
      ∀ x ∈ out, x.region_type = ramType → x.base % 4096 = 0 ∧ x.length % 4096 = 0 := by
  obtain ⟨eR, heR, heRam, heCont⟩ := hram
  have hex : ∃ x ∈ entries, entryContains x kb kl = true := ⟨eR, heR, heCont⟩
  obtain ⟨s, e, t, hsplit⟩ := findSplit_isSome hex
  obtain ⟨hEq, hpe, -⟩ := findSplit_eq hsplit
  have heMem : e ∈ entries := by
    rw [hEq]
    exact List.mem_append.2 (Or.inr (List.mem_cons_self _ _))
  have heqR : e = eR := contains_unique hdisj heMem heR hkl hpe heCont
  have heRam2 : e.region_type = ramType := by rw [heqR]; exact heRam
  obtain ⟨hA1, hA2⟩ := halign e heMem heRam2
  have hcont : e.base ≤ kb ∧ kb + kl ≤ e.base + e.length := by
    unfold entryContains isWithinB at hpe
    simpa using hpe
  rw [hEq] at hdisj
  obtain ⟨hPs, hPet, hCs⟩ := List.pairwise_append.1 hdisj
  rw [List.pairwise_cons] at hPet
  obtain ⟨hEt, hPt⟩ := hPet
  have hDs : ∀ x ∈ s, entryDisjoint x e := fun x hx => hCs x hx e (List.mem_cons_self _ _)
  have hDt : ∀ x ∈ t, entryDisjoint x e := fun x hx => entryDisjoint_symm (hEt x hx)
  have hPst : (s ++ t).Pairwise entryDisjoint := by
    rw [List.pairwise_append]
    exact ⟨hPs, hPt, fun a ha b hb => hCs a ha b (List.mem_cons_of_mem _ hb)⟩
  have hId : ∀ x, x ∈ s ∨ x ∈ t → alignEntry x = x := by
    intro x hx
    have hxMem : x ∈ entries := by
      rw [hEq]
      rcases hx with h | h
      · exact List.mem_append.2 (Or.inl h)
      · exact List.mem_append.2 (Or.inr (List.mem_cons_of_mem _ h))
    by_cases hxram : x.region_type = ramType
    · obtain ⟨hx1, hx2⟩ := halign x hxMem hxram
      exact alignEntry_aligned hx1 hx2
    · exact alignEntry_not_ram hxram
  refine ⟨(List.insertionSort entryLe (s ++ kernelPieces e kb kl ++ t)).map alignEntry,
    ?_, ?_, ?_, ?_, ?_⟩
  · unfold e820Init
    rw [hsplit]
  · exact pieces_countP s t e kb kl hDs hDt hkl hcont.1 hcont.2
  · exact pieces_sorted_base s t e kb kl hDs hDt hId hkl hcont.1 hcont.2 hA1 hA2
  · exact pieces_disjoint s t e kb kl hDs hDt hPst hId hkl hcont.1 hcont.2 hA1 hA2
  · intro x hx hxram
    obtain ⟨y, hy, rfl⟩ := List.mem_map.1 hx
    have hyram : y.region_type = ramType := by
      rw [← alignEntry_type y]
      exact hxram
    unfold alignEntry
    rw [if_pos hyram]
    exact ⟨alignUp_mod _, alignDown_mod _⟩

/-- Witness for `e820_init_normalises` at a concrete aligned firmware map. -/
theorem e820_init_normalises_witness :
    ∃ out, e820Init [⟨0, 0xA0000, 1, 1⟩] 0x10000 0x8000 = some out ∧
      out.countP (isImageReserved 0x10000 0x8000) = 1 ∧
      out.Pairwise (fun a b => a.base ≤ b.base) ∧
      out.Pairwise entryDisjoint ∧
      ∀ x ∈ out, x.region_type = ramType → x.base % 4096 = 0 ∧ x.length % 4096 = 0 :=
  e820_init_normalises [⟨0, 0xA0000, 1, 1⟩] 0x10000 0x8000 (by decide) (by decide)
    ⟨⟨0, 0xA0000, 1, 1⟩, by decide, by decide, by decide⟩ (by decide)

/-! ### Frame allocator, from `src/kernel/src/memory/mod.rs` -/

/-- `FrameSize` from `memory/mod.rs`. -/
inductive FrameSize
  | fourKb
  | twoMb
  | oneGb
deriving DecidableEq, Repr

/-- `FrameSize::to_bytes`. -/
def FrameSize.toBytes : FrameSize → Nat
  | .fourKb => 0x1000
  | .twoMb => 0x200000
  | .oneGb => 0x40000000

/-- `MemoryMap::iter_usable`: the Ram entries of the map, in map order. -/
def usableEntries (m : List MemoryMapEntry) : List MemoryMapEntry :=
  m.filter (fun e => e.region_type == ramType)

/-- `FrameAllocator` state: the map, the monotonic cursor `next_frame_addr`,
the fixed frame size, and the index `cur_entry` into the usable entries. -/
structure FrameAllocator where
  memory_map : List MemoryMapEntry
  next_frame_addr : Nat
  frame_size : FrameSize
  cur_entry : Nat
deriving Repr

/-- `FrameAllocator::new`: `cur_entry` is the index of the first usable entry
whose region contains the initial frame, or 0 when none does. -/
def FrameAllocator.new (m : List MemoryMapEntry) (addr : Nat) (fs : FrameSize) :
    FrameAllocator :=
  let cur := match (usableEntries m).findIdx?
      (fun e => isWithinB e.base e.length addr fs.toBytes) with
    | some i => i
    | none => 0
  ⟨m, addr, fs, cur⟩

/-- The scan loop of `get_next_frame` over the enumerated usable entries from
`cur_entry` on: when the cursor address lies below the entry's base it is
bumped to the base (and `cur_entry` to this index); the frame is yielded when
it fits entirely within the entry.  Returns
`(frame address, new next_frame_addr, new cur_entry)`. -/
def gnfGo (size : Nat) : List (Nat × MemoryMapEntry) → Nat → Nat →
    Option (Nat × Nat × Nat)
  | [], _, _ => none
  | (i, e) :: rest, addr, cur =>
    let addr2 := if addr < e.base then e.base else addr
    let cur2 := if addr < e.base then i else cur
    if isWithinB e.base e.length addr2 size then some (addr2, addr2 + size, cur2)
    else gnfGo size rest addr2 cur2

/-- The enumerated usable entries of the allocator's map. -/
def FrameAllocator.usableEnum (fa : FrameAllocator) : List (Nat × MemoryMapEntry) :=
  (usableEntries fa.memory_map).enum

/-- `FrameAllocator::get_next_frame`. -/
def FrameAllocator.getNextFrame (fa : FrameAllocator) : Option Nat × FrameAllocator :=
  match gnfGo fa.frame_size.toBytes (fa.usableEnum.drop fa.cur_entry)
      fa.next_frame_addr fa.cur_entry with
  | some (a, addr2, cur2) =>
    (some a, { fa with next_frame_addr := addr2, cur_entry := cur2 })
  | none => (none, fa)

/-- The addresses returned by `n` successive `get_next_frame` calls. -/
def FrameAllocator.runFrames (fa : FrameAllocator) : Nat → List Nat
  | 0 => []
  | n+1 =>
    match fa.getNextFrame with
    | (some a, fa2) => a :: fa2.runFrames n
    | (none, _) => []

theorem FrameSize.toBytes_pos (fs : FrameSize) : 0 < fs.toBytes := by
  cases fs <;> decide

theorem gnfGo_some {size : Nat} :
    ∀ {l : List (Nat × MemoryMapEntry)} {addr cur a addr2 cur2},
      gnfGo size l addr cur = some (a, addr2, cur2) →
      addr ≤ a ∧ addr2 = a + size ∧
        ∃ p ∈ l, isWithinB p.2.base p.2.length a size = true
  | [], addr, cur, a, addr2, cur2, h => by simp [gnfGo] at h
  | (i, e) :: rest, addr, cur, a, addr2, cur2, h => by
    unfold gnfGo at h
    by_cases hb : addr < e.base
    · simp only [if_pos hb] at h
      by_cases hw : isWithinB e.base e.length e.base size
      · rw [if_pos hw] at h
        obtain ⟨rfl, rfl, rfl⟩ : e.base = a ∧ e.base + size = addr2 ∧ i = cur2 := by
          simpa using h
        exact ⟨Nat.le_of_lt hb, rfl, (i, e), List.mem_cons_self _ _, hw⟩
      · rw [if_neg hw] at h
        obtain ⟨h1, h2, p, hp, hpw⟩ := gnfGo_some h
        exact ⟨by omega, h2, p, List.mem_cons_of_mem _ hp, hpw⟩
    · simp only [if_neg hb] at h
      by_cases hw : isWithinB e.base e.length addr size
      · rw [if_pos hw] at h
        obtain ⟨rfl, rfl, rfl⟩ : addr = a ∧ addr + size = addr2 ∧ cur = cur2 := by
          simpa using h
        exact ⟨Nat.le_refl _, rfl, (i, e), List.mem_cons_self _ _, hw⟩
      · rw [if_neg hw] at h
        obtain ⟨h1, h2, p, hp, hpw⟩ := gnfGo_some h
        exact ⟨h1, h2, p, List.mem_cons_of_mem _ hp, hpw⟩

theorem gnfGo_none_iff {size : Nat} :
    ∀ {l : List (Nat × MemoryMapEntry)}
      (_ : l.Pairwise (fun p q => p.2.base ≤ q.2.base)) {addr cur : Nat},
      (gnfGo size l addr cur = none ↔
        ∀ p ∈ l, ¬ (max addr p.2.base + size ≤ p.2.base + p.2.length))
  | [], _, addr, cur => by simp [gnfGo]
  | (i, e) :: rest, hsort, addr, cur => by
    obtain ⟨hhead, hrest⟩ := List.pairwise_cons.1 hsort
    dsimp only at hhead
    unfold gnfGo
    by_cases hb : addr < e.base
    · simp only [if_pos hb]
      have hmh : max addr e.base = e.base := Nat.max_eq_right (Nat.le_of_lt hb)
      by_cases hw : isWithinB e.base e.length e.base size
      · rw [if_pos hw]
        constructor
        · intro h
          simp at h
        · intro hall
          exfalso
          have h1 := hall (i, e) (List.mem_cons_self _ _)
          dsimp only at h1
          rw [hmh] at h1
          unfold isWithinB at hw
          simp only [decide_eq_true_eq] at hw
          omega
      · rw [if_neg hw]
        rw [gnfGo_none_iff hrest]
        unfold isWithinB at hw
        simp only [decide_eq_true_eq] at hw
        constructor
        · intro hall p hp
          rcases List.mem_cons.1 hp with rfl | hp'
          · dsimp only
            rw [hmh]
            omega
          · have h2 := hall p hp'
            have hbase := hhead p hp'
            rw [Nat.max_eq_right hbase] at h2
            rw [Nat.max_eq_right (by omega)]
            exact h2
        · intro hall p hp
          have h2 := hall p (List.mem_cons_of_mem _ hp)
          have hbase := hhead p hp
          rw [Nat.max_eq_right (by omega)] at h2
          rw [Nat.max_eq_right hbase]
          exact h2
    · simp only [if_neg hb]
      have hmh : max addr e.base = addr := Nat.max_eq_left (Nat.le_of_not_lt hb)
      by_cases hw : isWithinB e.base e.length addr size
      · rw [if_pos hw]
        constructor
        · intro h
          simp at h
        · intro hall
          exfalso
          have h1 := hall (i, e) (List.mem_cons_self _ _)
          dsimp only at h1
          rw [hmh] at h1
          unfold isWithinB at hw
          simp only [decide_eq_true_eq] at hw
          omega
      · rw [if_neg hw]
        rw [gnfGo_none_iff hrest]
        unfold isWithinB at hw
        simp only [decide_eq_true_eq] at hw
        constructor
        · intro hall p hp
          rcases List.mem_cons.1 hp with rfl | hp'
          · dsimp only
            rw [hmh]
            omega
          · exact hall p hp'
        · intro hall p hp
          exact hall p (List.mem_cons_of_mem _ hp)

theorem getNextFrame_some {fa : FrameAllocator} {a : Nat} {fa2 : FrameAllocator}
    (h : fa.getNextFrame = (some a, fa2)) :
    fa.next_frame_addr ≤ a ∧
    fa2.next_frame_addr = a + fa.frame_size.toBytes ∧
    fa2.memory_map = fa.memory_map ∧ fa2.frame_size = fa.frame_size ∧
    ∃ e ∈ usableEntries fa.memory_map,
      isWithinB e.base e.length a fa.frame_size.toBytes = true := by
  unfold FrameAllocator.getNextFrame at h
  cases hg : gnfGo fa.frame_size.toBytes (fa.usableEnum.drop fa.cur_entry)
      fa.next_frame_addr fa.cur_entry with
  | none =>
    rw [hg] at h
    simp at h
  | some trip =>
    obtain ⟨b, addr2, cur2⟩ := trip
    rw [hg] at h
    simp only [Prod.mk.injEq, Option.some.injEq] at h
    obtain ⟨rfl, rfl⟩ := h
    obtain ⟨h1, h2, p, hp, hpw⟩ := gnfGo_some hg
    have hpm : p.2 ∈ usableEntries fa.memory_map := by
      have hmem := (List.drop_sublist fa.cur_entry fa.usableEnum).subset hp
      unfold FrameAllocator.usableEnum at hmem
      rw [← List.enum_map_snd (usableEntries fa.memory_map)]
      exact List.mem_map_of_mem Prod.snd hmem
    exact ⟨h1, h2, rfl, rfl, p.2, hpm, hpw⟩

theorem getNextFrame_none_iff (fa : FrameAllocator)
    (hsort : (usableEntries fa.memory_map).Pairwise (fun a b => a.base ≤ b.base)) :
    (fa.getNextFrame).1 = none ↔
      ∀ p ∈ fa.usableEnum.drop fa.cur_entry,
        ¬ (max fa.next_frame_addr p.2.base + fa.frame_size.toBytes ≤
          p.2.base + p.2.length) := by
  have hsortEnum : (fa.usableEnum.drop fa.cur_entry).Pairwise
      (fun p q => p.2.base ≤ q.2.base) := by
    apply List.Pairwise.sublist (List.drop_sublist _ _)
    have h2 := hsort
    rw [← List.enum_map_snd (usableEntries fa.memory_map)] at h2
    rw [List.pairwise_map] at h2
    exact h2
  have hiff := @gnfGo_none_iff fa.frame_size.toBytes
    (fa.usableEnum.drop fa.cur_entry) hsortEnum fa.next_frame_addr fa.cur_entry
  constructor
  · intro h
    apply hiff.mp
    cases hg : gnfGo fa.frame_size.toBytes (fa.usableEnum.drop fa.cur_entry)
        fa.next_frame_addr fa.cur_entry with
    | none => rfl
    | some trip =>
      obtain ⟨b, addr2, cur2⟩ := trip
      unfold FrameAllocator.getNextFrame at h
      rw [hg] at h
      simp at h
  · intro hall
    unfold FrameAllocator.getNextFrame
    rw [hiff.mpr hall]

theorem runFrames_ge : ∀ (n : Nat) (fa : FrameAllocator),
    ∀ a ∈ fa.runFrames n, fa.next_frame_addr ≤ a
  | 0, fa => by
    intro a ha
    simp [FrameAllocator.runFrames] at ha
  | n+1, fa => by
    intro a ha
    unfold FrameAllocator.runFrames at ha
    cases hg : fa.getNextFrame with
    | mk r fa2 =>
      cases r with
      | none =>
        rw [hg] at ha
        simp at ha
      | some b =>
        rw [hg] at ha
        simp only [List.mem_cons] at ha
        obtain ⟨h1, h2, -, -, -⟩ := getNextFrame_some hg
        rcases ha with rfl | ha2
        · exact h1
        · have h3 := runFrames_ge n fa2 a ha2
          omega

theorem runFrames_chain : ∀ (n : Nat) (fa : FrameAllocator),
    List.Chain' (· < ·) (fa.runFrames n)
  | 0, fa => by simp [FrameAllocator.runFrames]
  | n+1, fa => by
    unfold FrameAllocator.runFrames
    cases hg : fa.getNextFrame with
    | mk r fa2 =>
      cases r with
      | none => simp
      | some b =>
        rw [List.chain'_cons']
        refine ⟨?_, runFrames_chain n fa2⟩
        intro y hy
        have hym := List.mem_of_mem_head? hy
        have hge := runFrames_ge n fa2 y hym
        obtain ⟨h1, h2, -, -, -⟩ := getNextFrame_some hg
        have hpos := FrameSize.toBytes_pos fa.frame_size
        omega

theorem runFrames_within : ∀ (n : Nat) (fa : FrameAllocator), ∀ a ∈ fa.runFrames n,
    ∃ e ∈ usableEntries fa.memory_map,
      isWithinB e.base e.length a fa.frame_size.toBytes = true
  | 0, fa => by
    intro a ha
    simp [FrameAllocator.runFrames] at ha
  | n+1, fa => by
    intro a ha
    unfold FrameAllocator.runFrames at ha
    cases hg : fa.getNextFrame with
    | mk r fa2 =>
      cases r with
      | none =>
        rw [hg] at ha
        simp at ha
      | some b =>
        rw [hg] at ha
        obtain ⟨-, -, hmap, hfs, e, he, hew⟩ := getNextFrame_some hg
        simp only [List.mem_cons] at ha
        rcases ha with rfl | ha2
        · exact ⟨e, he, hew⟩
        · obtain ⟨e2, he2, he2w⟩ := runFrames_within n fa2 a ha2
          rw [hmap] at he2
          rw [hfs] at he2w
          exact ⟨e2, he2, he2w⟩

/-- C3: for a memory map whose Ram entries are sorted by base, whose entries
are pairwise disjoint, and whose Ram entries are 4 KiB aligned, successive
`get_next_frame` calls return strictly increasing addresses; every returned
frame lies entirely within some Ram entry and overlaps no non-Ram entry; and
a call returns `None` exactly when no Ram entry at or beyond the cursor can
hold a further whole frame (starting at the cursor address bumped up to the
entry's base, i.e. `max next_frame_addr base`). -/
theorem frame_allocator_correct (fa : FrameAllocator)
    (hsort : (usableEntries fa.memory_map).Pairwise (fun a b => a.base ≤ b.base))
    (hdisj : fa.memory_map.Pairwise entryDisjoint)
    (halign : ∀ e ∈ fa.memory_map, e.region_type = ramType →
      e.base % 4096 = 0 ∧ e.length % 4096 = 0) :
    (∀ n, List.Chain' (· < ·) (fa.runFrames n)) ∧
    (∀ n, ∀ a ∈ fa.runFrames n,
      (∃ e ∈ fa.memory_map, e.region_type = ramType ∧
        e.base ≤ a ∧ a + fa.frame_size.toBytes ≤ e.base + e.length) ∧
      ∀ e2 ∈ fa.memory_map, ¬ e2.region_type = ramType →
        a + fa.frame_size.toBytes ≤ e2.base ∨ e2.base + e2.length ≤ a) ∧
    ((fa.getNextFrame).1 = none ↔
      ∀ p ∈ fa.usableEnum.drop fa.cur_entry,
        ¬ (max fa.next_frame_addr p.2.base + fa.frame_size.toBytes ≤
          p.2.base + p.2.length)) := by
  refine ⟨fun n => runFrames_chain n fa, ?_, getNextFrame_none_iff fa hsort⟩
  intro n a ha
  obtain ⟨e, he, hew⟩ := runFrames_within n fa a ha
  have heMem : e ∈ fa.memory_map := by
    unfold usableEntries at he
    exact List.mem_of_mem_filter he
  have heRam : e.region_type = ramType := by
    unfold usableEntries at he
    have h2 := List.of_mem_filter he
    simpa using h2
  unfold isWithinB at hew
  simp only [decide_eq_true_eq] at hew
  refine ⟨⟨e, heMem, heRam, hew.1, hew.2⟩, ?_⟩
  intro e2 he2 he2ram
  have hne : e ≠ e2 := fun hEq => he2ram (hEq ▸ heRam)
  have hD := List.Pairwise.forall (fun {x y} h => entryDisjoint_symm h) hdisj heMem he2 hne
  unfold entryDisjoint at hD
  omega

/-- Witness for `frame_allocator_correct` at a concrete one-entry Ram map. -/
theorem frame_allocator_correct_witness :
    List.Chain' (· < ·)
      ((FrameAllocator.new [⟨0, 0x3000, 1, 1⟩] 0 FrameSize.fourKb).runFrames 4) :=
  (frame_allocator_correct (FrameAllocator.new [⟨0, 0x3000, 1, 1⟩] 0 FrameSize.fourKb)
    (by decide) (by decide) (by decide)).1 4

/-! ### Timer alarm queue, from `src/kernel/src/time/timer.rs` -/

/-- The derived lexicographic `Ord::le` on `Time` (field order: secs, ms, us,
ns); `Alarm`s compare by `trigger_runtime` alone. -/
def Time.ble (a b : Time) : Bool :=
  if a.secs = b.secs then
    if a.ms = b.ms then
      if a.us = b.us then decide (a.ns ≤ b.ns)
      else decide (a.us < b.us)
    else decide (a.ms < b.ms)
  else decide (a.secs < b.secs)

/-- The derived lexicographic `Ord::lt` on `Time`. -/
def Time.blt (a b : Time) : Bool :=
  if a.secs = b.secs then
    if a.ms = b.ms then
      if a.us = b.us then decide (a.ns < b.ns)
      else decide (a.us < b.us)
    else decide (a.ms < b.ms)
  else decide (a.secs < b.secs)

theorem Time.ble_iff {a b : Time} : Time.ble a b = true ↔
    (a.secs < b.secs ∨ (a.secs = b.secs ∧ (a.ms < b.ms ∨ (a.ms = b.ms ∧
      (a.us < b.us ∨ (a.us = b.us ∧ a.ns ≤ b.ns)))))) := by
  unfold Time.ble
  split_ifs <;> simp only [decide_eq_true_eq] <;> omega

theorem Time.ble_trans {a b c : Time} (h1 : Time.ble a b = true)
    (h2 : Time.ble b c = true) : Time.ble a c = true := by
  rw [Time.ble_iff] at *
  omega

theorem Time.ble_total (a b : Time) : Time.ble a b = true ∨ Time.ble b a = true := by
  rw [Time.ble_iff, Time.ble_iff]
  omega

/-- `AlarmType` discriminant: a heap alarm is either a `Wait` alarm (its
`Arc<AtomicBool>` flag identified here by the alarm id) or a one-shot
`Schedule` alarm pushed by `add_schedule_alarm`. -/
inductive AlarmKind
  | wait
  | sched
deriving DecidableEq, Repr

/-- A heap `Alarm`: trigger runtime plus an identifying tag for its payload. -/
structure Alarm where
  trigger : Time
  kind : AlarmKind
  id : Nat
deriving DecidableEq, Repr

/-- The alarm-queue part of `Timer`: the single optional `schedule_alarm`
(only its trigger time matters) and the `BinaryHeap<Reverse<Alarm>>`,
abstracted as a list kept sorted by ascending trigger (`Time.ble`); the heap
pops a minimal alarm, and alarms comparing equal have equal triggers, so the
pop order is that of the sorted list. -/
structure TimerQ where
  schedule_alarm : Option Time
  alarm_queue : List Alarm
deriving DecidableEq, Repr

/-- A notification issued by `update_queue`: either the `schedule_alarm`
slot firing (`Alarm::notify` on `AlarmType::Schedule` calls
`scheduler::schedule()`), or a heap alarm firing.  Notification is modelled
as emitting the event; re-entrant alarm insertion during `notify` (the
`is_updating_queue` path) is outside the claim's fixed alarm set. -/
inductive TEvent
  | sched (trigger : Time)
  | queued (trigger : Time) (kind : AlarmKind) (id : Nat)
deriving DecidableEq, Repr

/-- The deadline of an event. -/
def TEvent.trigger : TEvent → Time
  | .sched t => t
  | .queued t _ _ => t

/-- Whether an event came from the heap. -/
def isQueuedEv : TEvent → Bool
  | .queued _ _ _ => true
  | .sched _ => false

/-- `TIMER_DEFAULT_FREQUENCY = secs!(1)`. -/
def timerDefaultFrequency : Time := ⟨1, 0, 0, 0⟩

/-- The `while let Some(alarm_rev) = self.alarm_queue.peek()` loop of
`update_queue`: alarms with `trigger <= runtime` are notified and popped;
the first later alarm lowers the required frequency to
`trigger - runtime` when smaller, and the loop breaks.  Returns the
remaining queue, the emitted events, and the required frequency. -/
def updateQueueLoop (runtime : Time) : List Alarm → Time → List Alarm × List TEvent × Time
  | [], freq => ([], [], freq)
  | al :: rest, freq =>
    if Time.ble al.trigger runtime then
      let r := updateQueueLoop runtime rest freq
      (r.1, TEvent.queued al.trigger al.kind al.id :: r.2.1, r.2.2)
    else
      (al :: rest, [],
        if Time.blt (al.trigger.sub runtime) freq then al.trigger.sub runtime else freq)

/-- `Timer::update_queue`: first the `schedule_alarm` slot (notified and
cleared when due, otherwise it bounds the required frequency), then the heap
loop.  The `schedule_alarm` re-check after `notify` is omitted because the
modelled `notify` does not re-install an alarm. -/
def TimerQ.updateQueue (st : TimerQ) (runtime : Time) : TimerQ × List TEvent × Time :=
  let schedStep : Option Time × List TEvent × Time :=
    match st.schedule_alarm with
    | some trig =>
      if Time.ble trig runtime then (none, [TEvent.sched trig], timerDefaultFrequency)
      else (some trig, [],
        if Time.blt (trig.sub runtime) timerDefaultFrequency then trig.sub runtime
        else timerDefaultFrequency)
    | none => (none, [], timerDefaultFrequency)
  let r := updateQueueLoop runtime st.alarm_queue schedStep.2.2
  (⟨schedStep.1, r.1⟩, schedStep.2.1 ++ r.2.1, r.2.2)

/-- `BinaryHeap::push` abstracted on the sorted-list model: ordered insert. -/
def ordInsertAlarm (al : Alarm) : List Alarm → List Alarm
  | [] => [al]
  | b :: rest =>
    if Time.ble al.trigger b.trigger then al :: b :: rest else b :: ordInsertAlarm al rest

/-- `Timer::add_to_queue` (used by `wait` and `add_schedule_alarm`): push an
alarm with trigger `runtime + time_to_wait`. -/
def TimerQ.addAlarm (st : TimerQ) (runtime wait : Time) (kind : AlarmKind)
    (idn : Nat) : TimerQ :=
  { st with alarm_queue := ordInsertAlarm ⟨runtime.add wait, kind, idn⟩ st.alarm_queue }

/-- `Timer::start_schedule_timer`: install/replace the schedule alarm with
trigger `runtime + time_to_wait`. -/
def TimerQ.startScheduleTimer (st : TimerQ) (runtime wait : Time) : TimerQ :=
  { st with schedule_alarm := some (runtime.add wait) }

/-- Run `update_queue` at each of the given runtimes (the runtimes at which
the timer interrupt or a reconfiguration advances `runtime` and drains the
queue); collects each update's notification list. -/
def TimerQ.runUpdates (st : TimerQ) : List Time → List (List TEvent)
  | [] => []
  | u :: us => (st.updateQueue u).2.1 :: ((st.updateQueue u).1).runUpdates us

/-- The index of the earliest update runtime that is at or past deadline `d`. -/
def firstDue (d : Time) : List Time → Option Nat
  | [] => none
  | u :: us => if Time.ble d u then some 0 else (firstDue d us).map (· + 1)

/-- The notification (at most one) of the `schedule_alarm` slot during one
queue update at the given runtime. -/
def schedEvs (o : Option Time) (u : Time) : List TEvent :=
  match o with
  | some trig => if Time.ble trig u then [TEvent.sched trig] else []
  | none => []

theorem updateQueueLoop_parts (u : Time) : ∀ (q : List Alarm) (f : Time),
    (updateQueueLoop u q f).1 = q.dropWhile (fun al => Time.ble al.trigger u) ∧
    (updateQueueLoop u q f).2.1 =
      (q.takeWhile (fun al => Time.ble al.trigger u)).map
        (fun al => TEvent.queued al.trigger al.kind al.id)
  | [], f => by simp [updateQueueLoop]
  | al :: rest, f => by
    unfold updateQueueLoop
    by_cases hb : Time.ble al.trigger u
    · obtain ⟨h1, h2⟩ := updateQueueLoop_parts u rest f
      rw [List.dropWhile_cons, List.takeWhile_cons]
      simp [hb, h1, h2]
    · rw [List.dropWhile_cons, List.takeWhile_cons]
      simp [hb]

theorem updateQueue_parts (st : TimerQ) (u : Time) :
    ((st.updateQueue u).1).schedule_alarm =
      (match st.schedule_alarm with
       | some trig => if Time.ble trig u then none else some trig
       | none => none) ∧
    ((st.updateQueue u).1).alarm_queue =
      st.alarm_queue.dropWhile (fun al => Time.ble al.trigger u) ∧
    (st.updateQueue u).2.1 =
      schedEvs st.schedule_alarm u ++
        (st.alarm_queue.takeWhile (fun al => Time.ble al.trigger u)).map
          (fun al => TEvent.queued al.trigger al.kind al.id) := by
  obtain ⟨sa, q⟩ := st
  cases sa with
  | none =>
    refine ⟨rfl, ?_, ?_⟩
    · exact (updateQueueLoop_parts u q timerDefaultFrequency).1
    · show (updateQueueLoop u q timerDefaultFrequency).2.1 = _
      rw [(updateQueueLoop_parts u q timerDefaultFrequency).2]
      rfl
  | some trig =>
    by_cases hb : Time.ble trig u
    · refine ⟨?_, (updateQueueLoop_parts u q _).1, ?_⟩
      · simp only [TimerQ.updateQueue, if_pos hb]
      · simp only [TimerQ.updateQueue, schedEvs, if_pos hb]
        rw [(updateQueueLoop_parts u q timerDefaultFrequency).2]
    · refine ⟨?_, (updateQueueLoop_parts u q _).1, ?_⟩
      · simp only [TimerQ.updateQueue, if_neg hb]
      · simp only [TimerQ.updateQueue, schedEvs, if_neg hb]
        rw [(updateQueueLoop_parts u q _).2]

theorem queued_not_mem_schedEvs {o : Option Time} {u tr : Time} {k : AlarmKind}
    {idn : Nat} : TEvent.queued tr k idn ∉ schedEvs o u := by
  cases o with
  | none => simp [schedEvs]
  | some trig =>
    by_cases hb : Time.ble trig u <;> simp [schedEvs, hb]

theorem mem_takeWhile_ble {u : Time} : ∀ {q : List Alarm}
    (_ : q.Pairwise (fun x y => Time.ble x.trigger y.trigger = true)) {al : Alarm},
    (al ∈ q.takeWhile (fun x => Time.ble x.trigger u) ↔
      al ∈ q ∧ Time.ble al.trigger u = true)
  | [], _, al => by simp
  | b :: rest, hs, al => by
    obtain ⟨hhead, hrest⟩ := List.pairwise_cons.1 hs
    rw [List.takeWhile_cons]
    by_cases hb : Time.ble b.trigger u
    · simp only [if_pos hb]
      constructor
      · intro h
        rcases List.mem_cons.1 h with rfl | h2
        · exact ⟨List.mem_cons_self _ _, hb⟩
        · obtain ⟨hm, hble⟩ := (mem_takeWhile_ble hrest).1 h2
          exact ⟨List.mem_cons_of_mem _ hm, hble⟩
      · rintro ⟨hm, hble⟩
        rcases List.mem_cons.1 hm with rfl | hm2
        · exact List.mem_cons_self _ _
        · exact List.mem_cons_of_mem _ ((mem_takeWhile_ble hrest).2 ⟨hm2, hble⟩)
    · simp only [if_neg hb]
      constructor
      · intro h
        exact absurd h (List.not_mem_nil al)
      · rintro ⟨hm, hble⟩
        rcases List.mem_cons.1 hm with rfl | hm2
        · exact absurd hble hb
        · exact absurd (Time.ble_trans (hhead al hm2) hble) hb

theorem mem_dropWhile_ble {u : Time} : ∀ {q : List Alarm}
    (_ : q.Pairwise (fun x y => Time.ble x.trigger y.trigger = true)) {al : Alarm},
    (al ∈ q.dropWhile (fun x => Time.ble x.trigger u) ↔
      al ∈ q ∧ ¬ Time.ble al.trigger u = true)
  | [], _, al => by simp
  | b :: rest, hs, al => by
    obtain ⟨hhead, hrest⟩ := List.pairwise_cons.1 hs
    rw [List.dropWhile_cons]
    by_cases hb : Time.ble b.trigger u
    · simp only [if_pos hb]
      rw [mem_dropWhile_ble hrest]
      constructor
      · rintro ⟨hm, hn⟩
        exact ⟨List.mem_cons_of_mem _ hm, hn⟩
      · rintro ⟨hm, hn⟩
        rcases List.mem_cons.1 hm with rfl | hm2
        · exact absurd hb hn
        · exact ⟨hm2, hn⟩
    · simp only [if_neg hb]
      constructor
      · intro hm
        rcases List.mem_cons.1 hm with rfl | hm2
        · exact ⟨List.mem_cons_self _ _, hb⟩
        · refine ⟨List.mem_cons_of_mem _ hm2, ?_⟩
          intro hble
          exact hb (Time.ble_trans (hhead al hm2) hble)
      · rintro ⟨hm, hn⟩
        exact hm

theorem getD_mem_or_default {α : Type} : ∀ (L : List α) (j : Nat) (d : α),
    L.getD j d ∈ L ∨ L.getD j d = d
  | [], j, d => Or.inr (by simp)
  | x :: L2, 0, d => Or.inl (by simp)
  | x :: L2, j+1, d => by
    rcases getD_mem_or_default L2 j d with h | h
    · exact Or.inl (by simp only [List.getD_cons_succ]; exact List.mem_cons_of_mem _ h)
    · exact Or.inr (by simp only [List.getD_cons_succ]; exact h)

theorem runUpdates_queued_src : ∀ (us : List Time) (st : TimerQ) (tr : Time)
    (k : AlarmKind) (idn : Nat) (L : List TEvent),
    L ∈ st.runUpdates us → TEvent.queued tr k idn ∈ L →
    (⟨tr, k, idn⟩ : Alarm) ∈ st.alarm_queue
  | [], st, tr, k, idn, L => by
    intro hL hev
    simp [TimerQ.runUpdates] at hL
  | u :: us2, st, tr, k, idn, L => by
    intro hL hev
    unfold TimerQ.runUpdates at hL
    rcases List.mem_cons.1 hL with rfl | hL2
    · obtain ⟨-, -, h3⟩ := updateQueue_parts st u
      rw [h3] at hev
      rcases List.mem_append.1 hev with h | h
      · exact absurd h queued_not_mem_schedEvs
      · obtain ⟨al, hal, halEq⟩ := List.mem_map.1 h
        have h5 : al = ⟨tr, k, idn⟩ := by
          obtain ⟨a1, a2, a3⟩ := al
          simp only [TEvent.queued.injEq] at halEq
          obtain ⟨rfl, rfl, rfl⟩ := halEq
          rfl
        rw [← h5]
        exact (List.takeWhile_sublist _).subset hal
    · have h6 := runUpdates_queued_src us2 ((st.updateQueue u).1) tr k idn L hL2 hev
      obtain ⟨-, h2, -⟩ := updateQueue_parts st u
      rw [h2] at h6
      exact (List.dropWhile_sublist _).subset h6

theorem runUpdates_none_sched : ∀ (us : List Time) (st : TimerQ),
    st.schedule_alarm = none → ∀ L ∈ st.runUpdates us, ∀ tr : Time,
      TEvent.sched tr ∉ L
  | [], st => by
    intro h L hL
    simp [TimerQ.runUpdates] at hL
  | u :: us2, st => by
    intro h L hL tr hev
    unfold TimerQ.runUpdates at hL
    rcases List.mem_cons.1 hL with rfl | hL2
    · obtain ⟨-, -, h3⟩ := updateQueue_parts st u
      rw [h3, h] at hev
      simp [schedEvs] at hev
    · have h4 : ((st.updateQueue u).1).schedule_alarm = none := by
        obtain ⟨h1, -, -⟩ := updateQueue_parts st u
        rw [h1, h]
      exact runUpdates_none_sched us2 _ h4 L hL2 tr hev

theorem runUpdates_queued_iff : ∀ (us : List Time) (st : TimerQ)
    (_ : st.alarm_queue.Pairwise (fun x y => Time.ble x.trigger y.trigger = true))
    (al : Alarm), al ∈ st.alarm_queue → ∀ (j : Nat),
    (TEvent.queued al.trigger al.kind al.id ∈ (st.runUpdates us).getD j [] ↔
      firstDue al.trigger us = some j)
  | [], st => by
    intro hs al hal j
    simp [TimerQ.runUpdates, firstDue, List.getD]
  | u :: us2, st => by
    intro hs al hal j
    unfold TimerQ.runUpdates firstDue
    obtain ⟨h1, h2, h3⟩ := updateQueue_parts st u
    cases j with
    | zero =>
      simp only [List.getD_cons_zero]
      rw [h3]
      by_cases hb : Time.ble al.trigger u
      · simp only [if_pos hb]
        constructor
        · intro h
          trivial
        · intro h
          apply List.mem_append.2
          right
          apply List.mem_map.2
          exact ⟨al, (mem_takeWhile_ble hs).2 ⟨hal, hb⟩, rfl⟩
      · simp only [if_neg hb]
        constructor
        · intro hev
          exfalso
          rcases List.mem_append.1 hev with h | h
          · exact queued_not_mem_schedEvs h
          · obtain ⟨al2, hal2, hEq⟩ := List.mem_map.1 h
            have h5 := ((mem_takeWhile_ble hs).1 hal2).2
            obtain ⟨b1, b2, b3⟩ := al2
            simp only [TEvent.queued.injEq] at hEq
            obtain ⟨hEq1, -, -⟩ := hEq
            rw [hEq1] at h5
            exact hb h5
        · intro h
          exfalso
          rcases Option.map_eq_some'.1 h with ⟨j2, -, hj2⟩
          omega
    | succ j2 =>
      simp only [List.getD_cons_succ]
      by_cases hb : Time.ble al.trigger u
      · simp only [if_pos hb]
        constructor
        · intro hev
          exfalso
          rcases getD_mem_or_default (((st.updateQueue u).1).runUpdates us2) j2 []
            with hL | hL
          · have h6 := runUpdates_queued_src us2 _ al.trigger al.kind al.id _ hL hev
            rw [h2] at h6
            exact ((mem_dropWhile_ble hs).1 h6).2 hb
          · rw [hL] at hev
            exact absurd hev (List.not_mem_nil _)
        · intro h
          exact absurd h (by simp)
      · simp only [if_neg hb]
        have hs2 : ((st.updateQueue u).1).alarm_queue.Pairwise
            (fun x y => Time.ble x.trigger y.trigger = true) := by
          rw [h2]
          exact List.Pairwise.sublist (List.dropWhile_sublist _) hs
        have hal2 : al ∈ ((st.updateQueue u).1).alarm_queue := by
          rw [h2]
          exact (mem_dropWhile_ble hs).2 ⟨hal, hb⟩
        rw [runUpdates_queued_iff us2 _ hs2 al hal2 j2]
        constructor
        · intro h
          rw [h]
          rfl
        · intro h
          rcases Option.map_eq_some'.1 h with ⟨j3, hj3, hj3e⟩
          have h7 : j3 = j2 := by omega
          rw [← h7]
          exact hj3

theorem runUpdates_sched_iff : ∀ (us : List Time) (st : TimerQ) (trig : Time),
    st.schedule_alarm = some trig → ∀ (j : Nat),
    (TEvent.sched trig ∈ (st.runUpdates us).getD j [] ↔ firstDue trig us = some j)
  | [], st => by
    intro trig h j
    simp [TimerQ.runUpdates, firstDue, List.getD]
  | u :: us2, st => by
    intro trig hsa j
    unfold TimerQ.runUpdates firstDue
    obtain ⟨h1, h2, h3⟩ := updateQueue_parts st u
    cases j with
    | zero =>
      simp only [List.getD_cons_zero]
      rw [h3, hsa]
      by_cases hb : Time.ble trig u
      · simp only [if_pos hb]
        constructor
        · intro h
          trivial
        · intro h
          apply List.mem_append.2
          left
          simp [schedEvs, hb]
      · simp only [if_neg hb]
        constructor
        · intro hev
          exfalso
          rcases List.mem_append.1 hev with h | h
          · simp [schedEvs, hb] at h
          · obtain ⟨al2, -, hEq⟩ := List.mem_map.1 h
            simp at hEq
        · intro h
          exfalso
          rcases Option.map_eq_some'.1 h with ⟨j2, -, hj2⟩
          omega
    | succ j2 =>
      simp only [List.getD_cons_succ]
      by_cases hb : Time.ble trig u
      · simp only [if_pos hb]
        constructor
        · intro hev
          exfalso
          have hnone : ((st.updateQueue u).1).schedule_alarm = none := by
            rw [h1, hsa]
            simp [hb]
          rcases getD_mem_or_default (((st.updateQueue u).1).runUpdates us2) j2 []
            with hL | hL
          · exact runUpdates_none_sched us2 _ hnone _ hL trig hev
          · rw [hL] at hev
            exact absurd hev (List.not_mem_nil _)
        · intro h
          exact absurd h (by simp)
      · simp only [if_neg hb]
        have hsa2 : ((st.updateQueue u).1).schedule_alarm = some trig := by
          rw [h1, hsa]
          simp [hb]
        rw [runUpdates_sched_iff us2 _ trig hsa2 j2]
        constructor
        · intro h
          rw [h]
          rfl
        · intro h
          rcases Option.map_eq_some'.1 h with ⟨j3, hj3, hj3e⟩
          have h7 : j3 = j2 := by omega
          rw [← h7]
          exact hj3

theorem runUpdates_queued_sorted : ∀ (us : List Time) (st : TimerQ)
    (_ : st.alarm_queue.Pairwise (fun x y => Time.ble x.trigger y.trigger = true)),
    ((st.runUpdates us).flatten.filter isQueuedEv).Pairwise
      (fun x y => Time.ble x.trigger y.trigger = true)
  | [], st => by
    intro hs
    simp [TimerQ.runUpdates]
  | u :: us2, st => by
    intro hs
    unfold TimerQ.runUpdates
    obtain ⟨h1, h2, h3⟩ := updateQueue_parts st u
    rw [List.flatten_cons, List.filter_append, h3, List.filter_append]
    have hfs : (schedEvs st.schedule_alarm u).filter isQueuedEv = [] := by
      cases hsa : st.schedule_alarm with
      | none => rfl
      | some trig =>
        by_cases hb : Time.ble trig u <;> simp [schedEvs, hb, isQueuedEv]
    have hfq : ((st.alarm_queue.takeWhile (fun al => Time.ble al.trigger u)).map
        (fun al => TEvent.queued al.trigger al.kind al.id)).filter isQueuedEv =
        (st.alarm_queue.takeWhile (fun al => Time.ble al.trigger u)).map
          (fun al => TEvent.queued al.trigger al.kind al.id) := by
      rw [List.filter_eq_self]
      intro ev hev
      obtain ⟨al2, -, hEq⟩ := List.mem_map.1 hev
      rw [← hEq]
      rfl
    rw [hfs, hfq, List.nil_append, List.pairwise_append]
    have hs2 : ((st.updateQueue u).1).alarm_queue.Pairwise
        (fun x y => Time.ble x.trigger y.trigger = true) := by
      rw [h2]
      exact List.Pairwise.sublist (List.dropWhile_sublist _) hs
    refine ⟨?_, runUpdates_queued_sorted us2 _ hs2, ?_⟩
    · rw [List.pairwise_map]
      refine List.Pairwise.imp ?_
        (List.Pairwise.sublist (List.takeWhile_sublist _) hs)
      intro a b hab
      exact hab
    · intro x hx y hy
      obtain ⟨al, halT, rfl⟩ := List.mem_map.1 hx
      have hbleX : Time.ble al.trigger u = true := ((mem_takeWhile_ble hs).1 halT).2
      have hyJ := List.mem_of_mem_filter hy
      have hyQ := List.of_mem_filter hy
      obtain ⟨L, hL, hyL⟩ := List.mem_flatten.1 hyJ
      cases y with
      | sched t => simp [isQueuedEv] at hyQ
      | queued tr k idn =>
        have hsrc := runUpdates_queued_src us2 _ tr k idn L hL hyL
        rw [h2] at hsrc
        have hnb := ((mem_dropWhile_ble hs).1 hsrc).2
        show Time.ble al.trigger tr = true
        rcases Time.ble_total tr u with h | h
        · exact absurd h hnb
        · exact Time.ble_trans hbleX h

theorem runUpdates_sched_head : ∀ (us : List Time) (st : TimerQ),
    ∀ L ∈ st.runUpdates us, ∀ trig : Time, TEvent.sched trig ∈ L →
      L.head? = some (TEvent.sched trig)
  | [], st => by
    intro L hL
    simp [TimerQ.runUpdates] at hL
  | u :: us2, st => by
    intro L hL trig hev
    unfold TimerQ.runUpdates at hL
    rcases List.mem_cons.1 hL with rfl | hL2
    · obtain ⟨-, -, h3⟩ := updateQueue_parts st u
      rw [h3] at hev ⊢
      rcases List.mem_append.1 hev with h | h
      · have h4 : schedEvs st.schedule_alarm u = [TEvent.sched trig] := by
          cases hsa : st.schedule_alarm with
          | none =>
            rw [hsa] at h
            simp [schedEvs] at h
          | some tg =>
            rw [hsa] at h
            by_cases hb : Time.ble tg u
            · simp only [schedEvs, if_pos hb] at h ⊢
              simp only [List.mem_singleton] at h
              rw [h]
            · simp [schedEvs, hb] at h
        rw [h4]
        rfl
      · exfalso
        obtain ⟨al, -, hEq⟩ := List.mem_map.1 h
        simp at hEq
    · exact runUpdates_sched_head us2 _ L hL2 trig hev

/-- A timer whose schedule alarm (installed via `start_schedule_timer` at
`runtime = 0`) is due at 5 ms and whose heap holds a `Wait` alarm due at 2 ms. -/
def c4State : TimerQ :=
  ((TimerQ.mk none []).startScheduleTimer ⟨0, 0, 0, 0⟩ (Time.from_ms 5)).addAlarm
    ⟨0, 0, 0, 0⟩ (Time.from_ms 2) AlarmKind.wait 0

/-- C4 counterexample: with a schedule alarm at deadline 5 ms and a `Wait`
alarm at deadline 2 ms (both added while `runtime = 0`), a single queue update
at `runtime = 5 ms` notifies the schedule alarm FIRST (step 1 of
`update_queue`) and the 2 ms heap alarm after it, so the notification
deadlines `[5 ms, 2 ms]` are not in non-decreasing order. -/
theorem c4_counterexample :
    ¬ (((c4State.runUpdates [Time.from_ms 5]).flatten.map TEvent.trigger).Pairwise
      (fun x y => Time.ble x y = true)) := by
  decide

/-- C4 (amended): for any set of alarms with deadlines `d_i` in the timer
(heap sorted by deadline) and any sequence of queue-update runtimes:
the heap notifications fire in non-decreasing deadline order; every heap
alarm and the schedule alarm fire exactly at the earliest queue update whose
runtime is `≥` their deadline (`firstDue`); and within a single update the
schedule alarm, when due, is notified before every heap alarm of that update
— even one with a smaller deadline, which is the only departure from the
claimed global non-decreasing order. -/
theorem timer_alarm_ordering (st : TimerQ) (us : List Time)
    (hs : st.alarm_queue.Pairwise (fun x y => Time.ble x.trigger y.trigger = true)) :
    ((st.runUpdates us).flatten.filter isQueuedEv).Pairwise
      (fun x y => Time.ble x.trigger y.trigger = true) ∧
    (∀ al ∈ st.alarm_queue, ∀ (j : Nat),
      (TEvent.queued al.trigger al.kind al.id ∈ (st.runUpdates us).getD j [] ↔
        firstDue al.trigger us = some j)) ∧
    (∀ trig : Time, st.schedule_alarm = some trig → ∀ (j : Nat),
      (TEvent.sched trig ∈ (st.runUpdates us).getD j [] ↔ firstDue trig us = some j)) ∧
    (∀ L ∈ st.runUpdates us, ∀ trig : Time, TEvent.sched trig ∈ L →
      L.head? = some (TEvent.sched trig)) :=
  ⟨runUpdates_queued_sorted us st hs,
    fun al hal j => runUpdates_queued_iff us st hs al hal j,
    fun trig htrig j => runUpdates_sched_iff us st trig htrig j,
    fun L hL trig hev => runUpdates_sched_head us st L hL trig hev⟩

/-- Witness for `timer_alarm_ordering` on the concrete two-alarm timer. -/
theorem timer_alarm_ordering_witness :
    ((c4State.runUpdates [Time.from_ms 5]).flatten.filter isQueuedEv).Pairwise
      (fun x y => Time.ble x.trigger y.trigger = true) :=
  (timer_alarm_ordering c4State [Time.from_ms 5] (by decide)).1

/-! ### Scheduler, from `src/kernel/src/scheduler/mod.rs` -/

/-- A task as the scheduler manipulates it: its id and blocked flag.  The
stack and saved register state never influence which task is selected; the
context switch itself is assembly and is modelled as the emitted switch
event (pair of outgoing id, if any, and incoming id). -/
structure STask where
  id : Nat
  is_blocked : Bool
deriving DecidableEq, Repr

/-- `Scheduler` state.  `blocked_task_map` is the `BTreeMap<TaskId, Task>`,
modelled as a key-sorted association list. -/
structure Sched where
  is_preemption_enabled : Bool
  is_idle : Bool
  idle_task : STask
  curr_task : Option STask
  task_queue : List STask
  blocked_task_map : List (Nat × STask)
deriving DecidableEq, Repr

/-- `BTreeMap::insert` on the sorted association list. -/
def mapInsert (m : List (Nat × STask)) (k : Nat) (t : STask) : List (Nat × STask) :=
  match m with
  | [] => [(k, t)]
  | (k2, t2) :: rest =>
    if k < k2 then (k, t) :: (k2, t2) :: rest
    else if k = k2 then (k, t) :: rest
    else (k2, t2) :: mapInsert rest k t

/-- `BTreeMap::remove`: the removed value (if the key is present) and the
remaining map. -/
def mapRemove (m : List (Nat × STask)) (k : Nat) : Option STask × List (Nat × STask) :=
  match m with
  | [] => (none, [])
  | (k2, t2) :: rest =>
    if k = k2 then (some t2, rest)
    else
      let r := mapRemove rest k
      (r.1, (k2, t2) :: r.2)

/-- `Scheduler::schedule`.  The second component is the `switch_task` event
`(outgoing id?, incoming id)`, `none` when no switch happens.  The
preemption-tick re-arm (`timer::start_schedule_timer`) touches only timer
state and is not part of the scheduler state modelled here. -/
def Sched.schedule (s : Sched) : Sched × Option (Option Nat × Nat) :=
  if s.is_idle then (s, none)
  else
    let moved : Option STask × List (Nat × STask) × Option Nat :=
      match s.curr_task with
      | some ct =>
        if ct.is_blocked then (none, mapInsert s.blocked_task_map ct.id ct, some ct.id)
        else (some ct, s.blocked_task_map, none)
      | none => (none, s.blocked_task_map, none)
    match s.task_queue with
    | next :: rest =>
      match moved.1 with
      | some ct =>
        ({ s with
            curr_task := some next, task_queue := rest ++ [ct],
            blocked_task_map := moved.2.1 }, some (some ct.id, next.id))
      | none =>
        ({ s with
            curr_task := some next, task_queue := rest,
            blocked_task_map := moved.2.1 }, some (moved.2.2, next.id))
    | [] =>
      match moved.1 with
      | some ct => ({ s with curr_task := some ct, blocked_task_map := moved.2.1 }, none)
      | none =>
        ({ s with curr_task := none, blocked_task_map := moved.2.1 },
          some (moved.2.2, s.idle_task.id))

/-- `Scheduler::wake_up_task`: remove the task from the blocked map; when
present, clear its flag, push it to the front of the ready queue and call
`schedule()`; otherwise do nothing. -/
def Sched.wakeUpTask (s : Sched) (task_id : Nat) : Sched × Option (Option Nat × Nat) :=
  match (mapRemove s.blocked_task_map task_id).1 with
  | some t =>
    ({ s with
        blocked_task_map := (mapRemove s.blocked_task_map task_id).2,
        task_queue := { t with is_blocked := false } :: s.task_queue }).schedule
  | none => (s, none)

/-- C5 counterexample: with an empty ready queue and a current UNBLOCKED
task, `schedule()` performs no switch at all (it returns early), leaving the
current task running — it does not select the idle task as claimed. -/
theorem c5_counterexample :
    (Sched.mk false false ⟨0, false⟩ (some ⟨1, false⟩) [] []).schedule =
      (Sched.mk false false ⟨0, false⟩ (some ⟨1, false⟩) [] [], none) := by
  decide

/-- C5 (amended): when the ready queue is non-empty, `schedule()` switches to
the task popped from its front (the old current task, when present and not
blocked, is pushed to the back); when the queue is empty, `schedule()`
switches to the idle task only if there is no current task or the current
task is blocked — with a current unblocked task it returns without
switching, leaving all state unchanged; `wake_up_task(id)` with `id` in the
blocked map removes it, clears its flag, pushes it to the front of the ready
queue and calls `schedule()`, and is a no-op otherwise.  (`is_idle` is never
set to `true` anywhere in the source, so the hypothesis holds in every
reachable state.) -/
theorem scheduler_schedule_wake (s : Sched) (hidle : s.is_idle = false) :
    (∀ next rest, s.task_queue = next :: rest →
      (s.schedule).1.curr_task = some next ∧
      (s.schedule).1.task_queue =
        rest ++ (match s.curr_task with
          | some ct => if ct.is_blocked then [] else [ct]
          | none => []) ∧
      ∃ f, (s.schedule).2 = some (f, next.id)) ∧
    (s.task_queue = [] →
      ((s.curr_task = none ∨ ∃ ct, s.curr_task = some ct ∧ ct.is_blocked = true) →
        ∃ f, (s.schedule).2 = some (f, s.idle_task.id)) ∧
      (∀ ct, s.curr_task = some ct → ct.is_blocked = false → s.schedule = (s, none))) ∧
    (∀ idn t, (mapRemove s.blocked_task_map idn).1 = some t →
      s.wakeUpTask idn =
        ({ s with
            blocked_task_map := (mapRemove s.blocked_task_map idn).2,
            task_queue := { t with is_blocked := false } :: s.task_queue }).schedule) ∧
    (∀ idn, (mapRemove s.blocked_task_map idn).1 = none →
      s.wakeUpTask idn = (s, none)) := by
  obtain ⟨pe, idl, idle, curr, q, bm⟩ := s
  simp only at hidle
  subst hidle
  refine ⟨?_, ?_, ?_, ?_⟩
  · intro next rest hq
    simp only at hq
    subst hq
    cases curr with
    | none =>
      refine ⟨rfl, by simp [Sched.schedule], ⟨none, rfl⟩⟩
    | some ct =>
      by_cases hb : ct.is_blocked
      · refine ⟨?_, ?_, ⟨some ct.id, ?_⟩⟩ <;> simp [Sched.schedule, hb]
      · refine ⟨?_, ?_, ⟨some ct.id, ?_⟩⟩ <;> simp [Sched.schedule, hb]
  · intro hq
    simp only at hq
    subst hq
    constructor
    · intro hcase
      cases curr with
      | none => exact ⟨none, rfl⟩
      | some ct =>
        rcases hcase with h | ⟨ct2, hct2, hb⟩
        · exact absurd h (by simp)
        · simp only [Option.some.injEq] at hct2
          subst hct2
          exact ⟨some ct.id, by simp [Sched.schedule, hb]⟩
    · intro ct hct hb
      cases curr with
      | none => exact absurd hct (by simp)
      | some ct2 =>
        simp only [Option.some.injEq] at hct
        subst hct
        simp [Sched.schedule, hb]
  · intro idn t h
    unfold Sched.wakeUpTask
    rw [h]
  · intro idn h
    unfold Sched.wakeUpTask
    rw [h]

/-- Witness for `scheduler_schedule_wake`: a ready task is popped from the
front, and waking a blocked task re-enters `schedule` with it at the front. -/
theorem scheduler_schedule_wake_witness :
    ((Sched.mk false false ⟨0, false⟩ (some ⟨1, false⟩) [⟨2, false⟩]
        [(3, ⟨3, true⟩)]).schedule).1.curr_task = some ⟨2, false⟩ ∧
    (Sched.mk false false ⟨0, false⟩ (some ⟨1, false⟩) [⟨2, false⟩]
        [(3, ⟨3, true⟩)]).wakeUpTask 3 =
      (Sched.mk false false ⟨0, false⟩ (some ⟨1, false⟩)
        (⟨3, false⟩ :: [⟨2, false⟩]) []).schedule := by
  have h := scheduler_schedule_wake
    (Sched.mk false false ⟨0, false⟩ (some ⟨1, false⟩) [⟨2, false⟩] [(3, ⟨3, true⟩)]) rfl
  exact ⟨(h.1 ⟨2, false⟩ [] rfl).1, h.2.2.1 3 ⟨3, true⟩ rfl⟩

/-! ### Kernel heap allocator, from `src/kernel/src/memory/kalloc.rs`

The back end is `LinkedListAllocator`: a LIFO singly linked list of free
regions, each region embedded in the heap as a `ListNode { length, next }`.
`ListNode` is two 8-byte fields, so `size_of::<ListNode>() == 16` and
`align_of::<ListNode>() == 8`.  The free list is modelled as the list of
`(address, length)` pairs in node order (head first); `add_free_region`
pushes at the front.  The front end is `FixedSizeBlockAllocator`: one free
list of block addresses per size class in `BLOCK_SIZES`.  Addresses are
`Nat`; a null pointer is address `0`. -/

def HEAP_BASE : Nat := 0x110000000000

def HEAP_LENGTH : Nat := 0xA00000

def listNodeSize : Nat := 16

def listNodeAlign : Nat := 8

/-- `core::alloc::Layout`: a size and an alignment.  The Rust type
guarantees the alignment is a power of two; theorems take that as a
hypothesis where it matters. -/
structure Layout where
  size : Nat
  align : Nat
deriving DecidableEq, Repr

/-- `LinkedListAllocator::adjust_layout`: raise the alignment to at least
`align_of::<ListNode>()`, pad the size to a multiple of the alignment
(`pad_to_align`), then raise the size to at least `size_of::<ListNode>()`. -/
def adjust_layout (layout0 : Layout) : Layout :=
  let align2 := Nat.max layout0.align listNodeAlign
  let padded := alignUp layout0.size align2
  ⟨Nat.max padded listNodeSize, align2⟩

/-- `LinkedListAllocator::add_free_region`: push the region at the front of
the free list.  Its two assertions are `is_aligned(address, 8)` and
`16 <= length`; `freeListOk` states them for every region on the list. -/
def add_free_region (fl : List (Nat × Nat)) (address length : Nat) : List (Nat × Nat) :=
  (address, length) :: fl

/-- `LinkedListAllocator::alloc_from_region`: the allocation start is the
region start aligned up; fails if the region is too small, or if a nonzero
tail would remain that cannot hold a `ListNode`. -/
def alloc_from_region (region : Nat × Nat) (length align : Nat) : Option Nat :=
  let alloc_start := alignUp region.1 align
  let alloc_end := alloc_start + length
  if region.1 + region.2 < alloc_end then none
  else if region.1 + region.2 ≠ alloc_end ∧ region.1 + region.2 < alloc_end + listNodeSize then none
  else some alloc_start

/-- `LinkedListAllocator::find_region`: first-fit scan; on success the
chosen region is unlinked and returned with the allocation start and the
remaining list. -/
def find_region (fl : List (Nat × Nat)) (length align : Nat) :
    Option ((Nat × Nat) × Nat × List (Nat × Nat)) :=
  match fl with
  | [] => none
  | r :: rest =>
    match alloc_from_region r length align with
    | some start => some (r, start, rest)
    | none =>
      match find_region rest length align with
      | some (r2, s2, rest2) => some (r2, s2, r :: rest2)
      | none => none

/-- `LinkedListAllocator::alloc`: adjust the layout, find a region, return
any excess past the allocation end to the free list.  Returns the null
address `0` on failure. -/
def llAlloc (fl : List (Nat × Nat)) (layout0 : Layout) : Nat × List (Nat × Nat) :=
  let layout := adjust_layout layout0
  match find_region fl layout.size layout.align with
  | some (region, alloc_start, rest) =>
    let alloc_end := alloc_start + layout.size
    let excess_size := region.1 + region.2 - alloc_end
    if 0 < excess_size then (alloc_start, add_free_region rest alloc_end excess_size)
    else (alloc_start, rest)
  | none => (0, fl)

/-- `LinkedListAllocator::dealloc`: return the whole adjusted-size region. -/
def llDealloc (fl : List (Nat × Nat)) (ptr : Nat) (layout0 : Layout) : List (Nat × Nat) :=
  add_free_region fl ptr (adjust_layout layout0).size

/-- `LinkedListAllocator::init` as called by `init_heap`: one free region
covering the heap. -/
def llInit : List (Nat × Nat) := add_free_region [] HEAP_BASE HEAP_LENGTH

def BLOCK_SIZES : List Nat := [8, 16, 32, 64, 128, 256, 512, 1024, 2048]

/-- `FixedSizeBlockAllocator`: per-class block free lists (block start
addresses, head first) plus the fallback linked-list allocator. -/
structure FixedSizeBlockAllocator where
  heads : List (List Nat)
  fallback : List (Nat × Nat)
deriving DecidableEq, Repr

/-- `FixedSizeBlockAllocator::get_index`: position of the first block size
at least `max(size, align)`. -/
def get_index (layout : Layout) : Option Nat :=
  BLOCK_SIZES.findIdx? (fun s => Nat.ble (Nat.max layout.size layout.align) s)

/-- The loop of `scrap_free_blocks` over the class indices `index+1..9`:
pop the head block of the first non-empty larger class and hand it to the
fallback allocator as a free region. -/
def scrapLoop (heads : List (List Nat)) (fallback : List (Nat × Nat)) :
    List Nat → Option (List (List Nat) × List (Nat × Nat))
  | [] => none
  | i :: rest =>
    match heads.getD i [] with
    | [] => scrapLoop heads fallback rest
    | addr :: tl =>
      some (heads.set i tl, add_free_region fallback addr (BLOCK_SIZES.getD i 0))

/-- `FixedSizeBlockAllocator::scrap_free_blocks`. -/
def scrap_free_blocks (a : FixedSizeBlockAllocator) (layout : Layout) :
    Option FixedSizeBlockAllocator :=
  match get_index layout with
  | some index =>
    match scrapLoop a.heads a.fallback
        (List.range' (index + 1) (BLOCK_SIZES.length - (index + 1))) with
    | some (h, f) => some ⟨h, f⟩
    | none => none
  | none => none

/-- The first part of `GlobalAlloc::alloc` for
`Spinlock<FixedSizeBlockAllocator>`, before the null-retry check: take a
cached block of the request's class, or allocate one block from the
fallback (splitting a 16-byte region into two 8-byte blocks for class 0),
or for class-less layouts allocate from the fallback directly. -/
def fsbaAllocFirst (a : FixedSizeBlockAllocator) (layout : Layout) :
    Nat × FixedSizeBlockAllocator :=
  match get_index layout with
  | some index =>
    match a.heads.getD index [] with
    | addr :: tl => (addr, { a with heads := a.heads.set index tl })
    | [] =>
      let block_size := BLOCK_SIZES.getD index 0
      let r := llAlloc a.fallback ⟨block_size, 1⟩
      if r.1 ≠ 0 ∧ block_size = 8 then
        (r.1, { a with
                  fallback := r.2,
                  heads := a.heads.set index ((r.1 + 8) :: a.heads.getD index []) })
      else (r.1, { a with fallback := r.2 })
  | none =>
    let r := llAlloc a.fallback layout
    (r.1, { a with fallback := r.2 })

/-- `GlobalAlloc::alloc`: on a null result, scrap a larger free block and
retry the fallback with the ORIGINAL layout. -/
def fsbaAlloc (a : FixedSizeBlockAllocator) (layout : Layout) :
    Nat × FixedSizeBlockAllocator :=
  let r := fsbaAllocFirst a layout
  if r.1 = 0 then
    match scrap_free_blocks r.2 layout with
    | some a3 =>
      let r2 := llAlloc a3.fallback layout
      (r2.1, { a3 with fallback := r2.2 })
    | none => r
  else r

/-- The two assertions of `add_free_region`, as an invariant of the whole
free list: every region start is 8-aligned (`align_of::<ListNode>()`) and
every region length is at least 16 (`size_of::<ListNode>()`). -/
def freeListOk (fl : List (Nat × Nat)) : Prop :=
  ∀ r ∈ fl, r.1 % 8 = 0 ∧ 16 ≤ r.2

theorem alignUp_eq_self {v b : Nat} (h : v % b = 0) : alignUp v b = v := by
  unfold alignUp
  rw [if_pos h]

theorem dvd_alignUp (v b : Nat) (hb : 0 < b) : b ∣ alignUp v b := by
  unfold alignUp
  by_cases h : v % b = 0
  · rw [if_pos h]
    exact Nat.dvd_of_mod_eq_zero h
  · rw [if_neg h]
    have h1 : v % b < b := Nat.mod_lt v hb
    have h2 := Nat.div_add_mod v b
    refine ⟨v / b + 1, ?_⟩
    rw [Nat.mul_add]
    omega

theorem alignUp_le_of_dvd {v m b : Nat} (hv : v ≤ m) (hb : 0 < b) (hm : b ∣ m) :
    alignUp v b ≤ m := by
  unfold alignUp
  by_cases h : v % b = 0
  · rw [if_pos h]
    exact hv
  · rw [if_neg h]
    obtain ⟨q, rfl⟩ := hm
    have h1 : v % b < b := Nat.mod_lt v hb
    have h2 := Nat.div_add_mod v b
    have h3 : v / b < q := by
      by_contra h4
      push_neg at h4
      have h5 : b * q ≤ b * (v / b) := Nat.mul_le_mul_left b h4
      omega
    have h5 : b * (v / b + 1) ≤ b * q := Nat.mul_le_mul_left b h3
    rw [Nat.mul_add] at h5
    omega

theorem dvd8_natMax {a b : Nat} (ha : 8 ∣ a) (hb : 8 ∣ b) : 8 ∣ Nat.max a b := by
  show 8 ∣ max a b
  omega

theorem dvd_max_pow2 (k : Nat) : 8 ∣ Nat.max (2 ^ k) 8 := by
  show 8 ∣ max (2 ^ k) 8
  rcases Nat.le_total (2 ^ k) 8 with h | h
  · omega
  · have h3 : 3 ≤ k := by
      by_contra h4
      push_neg at h4
      have h5 : 2 ^ k ≤ 2 ^ 2 := Nat.pow_le_pow_right (by omega) (by omega)
      have h6 : (2 : Nat) ^ 2 = 4 := by norm_num
      omega
    have h7 : 8 ∣ 2 ^ k := by
      refine ⟨2 ^ (k - 3), ?_⟩
      rw [show (8 : Nat) = 2 ^ 3 by norm_num, ← pow_add]
      congr 1
      omega
    omega

theorem get_index_bound (layout : Layout) (index : Nat)
    (h : get_index layout = some index) :
    index < 9 ∧ Nat.max layout.size layout.align ≤ BLOCK_SIZES.getD index 0 := by
  simp only [get_index, BLOCK_SIZES, List.findIdx?_cons, List.findIdx?_nil] at h
  split_ifs at h with h1 h2 h3 h4 h5 h6 h7 h8 h9 <;>
    simp only [Option.some.injEq, reduceCtorEq] at h <;>
    (try subst h) <;>
    simp_all [BLOCK_SIZES]

theorem bs_facts : ∀ index : Fin 9, ∀ i : Fin 9, index < i →
    (BLOCK_SIZES.getD index.val 0 = 8 ∧
      (BLOCK_SIZES.getD i.val 0 = 16 ∨ 32 ≤ BLOCK_SIZES.getD i.val 0)) ∨
    (16 ≤ BLOCK_SIZES.getD index.val 0 ∧ BLOCK_SIZES.getD index.val 0 % 8 = 0 ∧
      BLOCK_SIZES.getD index.val 0 + 16 ≤ BLOCK_SIZES.getD i.val 0) := by
  decide

theorem bs_ge16 : ∀ i : Fin 9, 0 < i.val → 16 ≤ BLOCK_SIZES.getD i.val 0 := by
  decide

theorem alloc_from_region_spec (region : Nat × Nat) (length align start : Nat)
    (h : alloc_from_region region length align = some start) :
    start = alignUp region.1 align ∧ start + length ≤ region.1 + region.2 ∧
    (region.1 + region.2 = start + length ∨
      start + length + 16 ≤ region.1 + region.2) := by
  simp only [alloc_from_region, listNodeSize] at h
  by_cases h1 : region.1 + region.2 < alignUp region.1 align + length
  · rw [if_pos h1] at h
    exact absurd h (by simp)
  · rw [if_neg h1] at h
    by_cases h2 : region.1 + region.2 ≠ alignUp region.1 align + length ∧
        region.1 + region.2 < alignUp region.1 align + length + 16
    · rw [if_pos h2] at h
      exact absurd h (by simp)
    · rw [if_neg h2] at h
      simp only [Option.some.injEq] at h
      subst h
      refine ⟨rfl, by omega, by omega⟩

theorem find_region_spec (fl : List (Nat × Nat)) (length align : Nat)
    (region : Nat × Nat) (start : Nat) (rest : List (Nat × Nat))
    (h : find_region fl length align = some (region, start, rest)) :
    region ∈ fl ∧ (∀ r ∈ rest, r ∈ fl) ∧
    alloc_from_region region length align = some start := by
  induction fl generalizing rest with
  | nil => simp [find_region] at h
  | cons r0 tl ih =>
    simp only [find_region] at h
    cases hafr : alloc_from_region r0 length align with
    | some s0 =>
      rw [hafr] at h
      simp only [Option.some.injEq, Prod.mk.injEq] at h
      obtain ⟨rfl, rfl, rfl⟩ := h
      exact ⟨List.mem_cons_self r0 tl, fun r hr => List.mem_cons_of_mem r0 hr, hafr⟩
    | none =>
      rw [hafr] at h
      cases hrec : find_region tl length align with
      | none =>
        rw [hrec] at h
        simp at h
      | some trip =>
        obtain ⟨r2, s2, rest2⟩ := trip
        rw [hrec] at h
        simp only [Option.some.injEq, Prod.mk.injEq] at h
        obtain ⟨rfl, rfl, rfl⟩ := h
        obtain ⟨hmem, hsub, hafr2⟩ := ih rest2 hrec
        refine ⟨List.mem_cons_of_mem r0 hmem, ?_, hafr2⟩
        intro r hr
        rcases List.mem_cons.mp hr with rfl | hr2
        · exact List.mem_cons_self r tl
        · exact List.mem_cons_of_mem r0 (hsub r hr2)

theorem llAlloc_eq (fl : List (Nat × Nat)) (layout0 : Layout) :
    llAlloc fl layout0 =
      match find_region fl (adjust_layout layout0).size (adjust_layout layout0).align with
      | some (region, alloc_start, rest) =>
        if 0 < region.1 + region.2 - (alloc_start + (adjust_layout layout0).size) then
          (alloc_start, add_free_region rest (alloc_start + (adjust_layout layout0).size)
            (region.1 + region.2 - (alloc_start + (adjust_layout layout0).size)))
        else (alloc_start, rest)
      | none => (0, fl) := rfl

theorem adjust_align_eq (layout0 : Layout) :
    (adjust_layout layout0).align = Nat.max layout0.align 8 := rfl

theorem adjust_size_eq (layout0 : Layout) :
    (adjust_layout layout0).size =
      Nat.max (alignUp layout0.size (Nat.max layout0.align 8)) 16 := rfl

theorem adjust_align_pos (layout0 : Layout) : 0 < (adjust_layout layout0).align := by
  rw [adjust_align_eq]
  show 0 < max layout0.align 8
  omega

theorem adjust_size_ge (layout0 : Layout) : 16 ≤ (adjust_layout layout0).size := by
  rw [adjust_size_eq]
  show 16 ≤ max (alignUp layout0.size (Nat.max layout0.align 8)) 16
  omega

theorem adjust_dvd8 (layout0 : Layout) (k : Nat) (hpow : layout0.align = 2 ^ k) :
    8 ∣ (adjust_layout layout0).align ∧ 8 ∣ (adjust_layout layout0).size := by
  have ha : 8 ∣ (adjust_layout layout0).align := by
    rw [adjust_align_eq, hpow]
    exact dvd_max_pow2 k
  refine ⟨ha, ?_⟩
  rw [adjust_size_eq]
  refine dvd8_natMax ?_ (by norm_num)
  have hb : 0 < Nat.max layout0.align 8 := by
    show 0 < max layout0.align 8
    omega
  calc (8 : Nat) ∣ Nat.max layout0.align 8 := by rw [hpow]; exact dvd_max_pow2 k
  _ ∣ alignUp layout0.size (Nat.max layout0.align 8) := dvd_alignUp _ _ hb

/-- C9 preservation core: one `LinkedListAllocator::alloc` keeps every free
region 8-aligned and at least 16 bytes long, for any layout whose alignment
is a power of two (the `Layout` type invariant). -/
theorem llAlloc_preserves (fl : List (Nat × Nat)) (layout0 : Layout) (k : Nat)
    (hpow : layout0.align = 2 ^ k) (hfl : freeListOk fl) :
    freeListOk (llAlloc fl layout0).2 := by
  rw [llAlloc_eq]
  cases hfr : find_region fl (adjust_layout layout0).size (adjust_layout layout0).align with
  | none => exact hfl
  | some trip =>
    obtain ⟨region, start, rest⟩ := trip
    obtain ⟨hreg, hrest, hafr⟩ := find_region_spec _ _ _ _ _ _ hfr
    obtain ⟨hstart, hle, hcase⟩ := alloc_from_region_spec _ _ _ _ hafr
    obtain ⟨hda, hds⟩ := adjust_dvd8 layout0 k hpow
    have hdstart : 8 ∣ start := by
      rw [hstart]
      exact dvd_trans hda (dvd_alignUp _ _ (adjust_align_pos layout0))
    dsimp only
    by_cases hex : 0 < region.1 + region.2 - (start + (adjust_layout layout0).size)
    · rw [if_pos hex]
      intro r hr
      rcases List.mem_cons.mp hr with rfl | hr2
      · constructor
        · omega
        · omega
      · exact hfl r (hrest r hr2)
    · rw [if_neg hex]
      intro r hr
      exact hfl r (hrest r hr)

theorem scrapLoop_sound (heads : List (List Nat)) (fb : List (Nat × Nat)) (is : List Nat)
    (h16 : ∀ i ∈ is, 16 ≤ BLOCK_SIZES.getD i 0)
    (hb : ∀ i ∈ is, ∀ b ∈ heads.getD i [], b % 8 = 0)
    (hfb : freeListOk fb) :
    ∀ h f, scrapLoop heads fb is = some (h, f) → freeListOk f := by
  induction is with
  | nil =>
    intro h f hh
    simp [scrapLoop] at hh
  | cons i rest ih =>
    intro h f hh
    simp only [scrapLoop] at hh
    cases hhead : heads.getD i [] with
    | nil =>
      rw [hhead] at hh
      exact ih (fun j hj => h16 j (List.mem_cons_of_mem i hj))
        (fun j hj => hb j (List.mem_cons_of_mem i hj)) h f hh
    | cons addr tl =>
      rw [hhead] at hh
      dsimp only at hh
      simp only [Option.some.injEq, Prod.mk.injEq] at hh
      obtain ⟨rfl, rfl⟩ := hh
      intro r hr
      rcases List.mem_cons.mp hr with rfl | hr2
      · refine ⟨hb i (List.mem_cons_self i rest) addr (by rw [hhead]; exact List.mem_cons_self addr tl), ?_⟩
        exact h16 i (List.mem_cons_self i rest)
      · exact hfb r hr2

theorem scrapLoop_first (heads : List (List Nat)) (fb : List (Nat × Nat)) (is : List Nat)
    (h : ∃ i ∈ is, heads.getD i [] ≠ []) :
    ∃ i b tl, i ∈ is ∧ heads.getD i [] = b :: tl ∧
      scrapLoop heads fb is = some (heads.set i tl, (b, BLOCK_SIZES.getD i 0) :: fb) := by
  induction is with
  | nil => simp at h
  | cons i rest ih =>
    cases hhead : heads.getD i [] with
    | cons b tl =>
      refine ⟨i, b, tl, List.mem_cons_self i rest, hhead, ?_⟩
      simp only [scrapLoop]
      rw [hhead]
      rfl
    | nil =>
      obtain ⟨j, hj, hne⟩ := h
      rcases List.mem_cons.mp hj with rfl | hj2
      · exact absurd hhead hne
      · obtain ⟨j2, b, tl, hmem, heq, hloop⟩ := ih ⟨j, hj2, hne⟩
        refine ⟨j2, b, tl, List.mem_cons_of_mem i hmem, heq, ?_⟩
        simp only [scrapLoop]
        rw [hhead]
        exact hloop

/-- The retried fallback allocation after a scrap: the scrapped block sits
at the front of the free list and first-fit takes it whole (or with a
`ListNode`-sized tail), so the retry returns the block address. -/
theorem llAlloc_scrapped (fb : List (Nat × Nat)) (layout0 : Layout) (b B K : Nat)
    (halign : layout0.align ≤ 8) (hb8 : b % 8 = 0) (hbpos : 0 < b)
    (hszK : Nat.max layout0.size layout0.align ≤ K)
    (hcase : (K = 8 ∧ (B = 16 ∨ 32 ≤ B)) ∨ (16 ≤ K ∧ K % 8 = 0 ∧ K + 16 ≤ B)) :
    (llAlloc ((b, B) :: fb) layout0).1 = b := by
  have hA8 : Nat.max layout0.align 8 = 8 := by
    show max layout0.align 8 = 8
    omega
  have hA : (adjust_layout layout0).align = 8 := by
    rw [adjust_align_eq, hA8]
  have hsz : layout0.size ≤ K := by
    have h1 : layout0.size ≤ Nat.max layout0.size layout0.align := by
      show layout0.size ≤ max layout0.size layout0.align
      omega
    omega
  have hS : (adjust_layout layout0).size = Nat.max (alignUp layout0.size 8) 16 := by
    rw [adjust_size_eq, hA8]
  have hSB : (adjust_layout layout0).size ≤ B ∧
      (B = (adjust_layout layout0).size ∨ (adjust_layout layout0).size + 16 ≤ B) := by
    rw [hS]
    rcases hcase with ⟨hK8, hBc⟩ | ⟨hK16, hK8d, hKB⟩
    · have h1 : alignUp layout0.size 8 ≤ 8 :=
        alignUp_le_of_dvd (by omega) (by norm_num) (by norm_num)
      have h2 : Nat.max (alignUp layout0.size 8) 16 = 16 := by
        show max (alignUp layout0.size 8) 16 = 16
        omega
      rw [h2]
      omega
    · have h1 : alignUp layout0.size 8 ≤ K :=
        alignUp_le_of_dvd hsz (by norm_num) (Nat.dvd_of_mod_eq_zero hK8d)
      have h2 : Nat.max (alignUp layout0.size 8) 16 ≤ K := by
        show max (alignUp layout0.size 8) 16 ≤ K
        omega
      omega
  have hafr : alloc_from_region (b, B) (adjust_layout layout0).size 8 = some b := by
    simp only [alloc_from_region, listNodeSize]
    rw [alignUp_eq_self hb8]
    rw [if_neg (by omega), if_neg (by omega)]
  have hfr : find_region ((b, B) :: fb) (adjust_layout layout0).size
      (adjust_layout layout0).align = some ((b, B), b, fb) := by
    rw [hA]
    simp only [find_region, hafr]
  rw [llAlloc_eq, hfr]
  dsimp only
  split <;> rfl

/-- Concrete state for the C6 counterexample: all class lists empty except
class 4 (128 bytes) holding one block at address 72 (8-aligned, as every
block carved from the 8-aligned fallback is), and an exhausted fallback. -/
def c6State : FixedSizeBlockAllocator :=
  ⟨[[], [], [], [], [72], [], [], [], []], []⟩

/-- C6 counterexample: request `Layout(size 8, align 64)` (class 3, 64
bytes).  The fallback is exhausted and class 4 holds a free block, which
`scrap_free_blocks` duly detaches and returns to the fallback — but the
retried allocation uses the ORIGINAL layout, whose adjusted form needs a
64-aligned start inside the scrapped 128-byte region at 72; aligning 72 up
to 128 leaves a 56-byte head and an 8-byte tail, `alloc_from_region`
rejects the region (tail smaller than a `ListNode`), and the retry returns
null.  The claim that the retried allocation succeeds is false. -/
theorem c6_counterexample :
    get_index ⟨8, 64⟩ = some 3 ∧
    c6State.heads.getD 4 [] = [72] ∧
    scrap_free_blocks c6State ⟨8, 64⟩ =
      some ⟨c6State.heads.set 4 [], [(72, 128)]⟩ ∧
    (fsbaAlloc c6State ⟨8, 64⟩).1 = 0 := by
  decide

/-- C6 (amended): suppose the request has a size class `index`
(`get_index` succeeds), its alignment is at most 8, the class-`index` list
is empty, the fallback allocation of one class-`index` block fails (back
end exhausted), every cached block address is 8-aligned and non-null, and
some class strictly larger than `index` holds a free block.  Then `alloc`
detaches exactly the head block `b` of the first such class `i`, pushes
`(b, BLOCK_SIZES[i])` onto the fallback free list, retries with the
original layout, and the retry succeeds returning exactly `b` (non-null).
The alignment restriction is necessary: the counterexample shows an
align-64 request for which the retry fails. -/
theorem heap_scrap_policy (a : FixedSizeBlockAllocator) (layout : Layout) (index : Nat)
    (hidx : get_index layout = some index)
    (halign : layout.align ≤ 8)
    (hempty : a.heads.getD index [] = [])
    (hfb : llAlloc a.fallback ⟨BLOCK_SIZES.getD index 0, 1⟩ = (0, a.fallback))
    (hblocks : ∀ i < 9, ∀ b ∈ a.heads.getD i [], b % 8 = 0 ∧ 0 < b)
    (hne : ∃ i, index < i ∧ i < 9 ∧ a.heads.getD i [] ≠ []) :
    ∃ i b tl, index < i ∧ i < 9 ∧ a.heads.getD i [] = b :: tl ∧
      scrap_free_blocks a layout =
        some ⟨a.heads.set i tl, (b, BLOCK_SIZES.getD i 0) :: a.fallback⟩ ∧
      (fsbaAlloc a layout).1 = b ∧ 0 < b := by
  obtain ⟨hi9, hK⟩ := get_index_bound layout index hidx
  have hrange : ∀ j, j ∈ List.range' (index + 1) (BLOCK_SIZES.length - (index + 1)) ↔
      index < j ∧ j < 9 := by
    intro j
    rw [List.mem_range'_1, show BLOCK_SIZES.length = 9 from rfl]
    omega
  obtain ⟨i0, hi0a, hi0b, hi0ne⟩ := hne
  obtain ⟨i, b, tl, hmem, hhead, hloop⟩ :=
    scrapLoop_first a.heads a.fallback _ ⟨i0, (hrange i0).2 ⟨hi0a, hi0b⟩, hi0ne⟩
  have hi : index < i ∧ i < 9 := (hrange i).1 hmem
  have hb := hblocks i hi.2 b (by rw [hhead]; exact List.mem_cons_self b tl)
  have hscrap : scrap_free_blocks a layout =
      some ⟨a.heads.set i tl, (b, BLOCK_SIZES.getD i 0) :: a.fallback⟩ := by
    simp only [scrap_free_blocks, hidx, hloop]
  have hcase := bs_facts ⟨index, hi9⟩ ⟨i, hi.2⟩ (Fin.mk_lt_mk.mpr hi.1)
  have hretry := llAlloc_scrapped a.fallback layout b (BLOCK_SIZES.getD i 0)
    (BLOCK_SIZES.getD index 0) halign hb.1 hb.2 hK hcase
  have hfirst : fsbaAllocFirst a layout = (0, a) := by
    simp only [fsbaAllocFirst, hidx, hempty, hfb]
    rw [if_neg (by simp)]
  refine ⟨i, b, tl, hi.1, hi.2, hhead, hscrap, ?_, hb.2⟩
  simp only [fsbaAlloc, hfirst, hscrap]
  exact hretry

/-- Witness for `heap_scrap_policy`: exhausted fallback, one 128-byte block
cached at 8000, request `Layout(8, 8)`; the scrap-then-retry path returns
the block at 8000. -/
theorem heap_scrap_policy_witness :
    ∃ i b tl, 0 < i ∧ i < 9 ∧
      (⟨[[], [], [], [], [8000], [], [], [], []], []⟩ :
          FixedSizeBlockAllocator).heads.getD i [] = b :: tl ∧
      scrap_free_blocks ⟨[[], [], [], [], [8000], [], [], [], []], []⟩ ⟨8, 8⟩ =
        some ⟨(⟨[[], [], [], [], [8000], [], [], [], []], []⟩ :
            FixedSizeBlockAllocator).heads.set i tl, [(b, BLOCK_SIZES.getD i 0)]⟩ ∧
      (fsbaAlloc ⟨[[], [], [], [], [8000], [], [], [], []], []⟩ ⟨8, 8⟩).1 = b ∧ 0 < b :=
  heap_scrap_policy ⟨[[], [], [], [], [8000], [], [], [], []], []⟩ ⟨8, 8⟩ 0
    (by decide) (by decide) (by decide) (by decide) (by decide)
    ⟨4, by decide, by decide, by decide⟩

/-- C9 counterexample: right after `init` the heap free list is the single
region `(HEAP_BASE, HEAP_LENGTH)`; one allocation of `Layout(24, 8)` (whose
adjusted size is 24) splits off the excess at `HEAP_BASE + 24`, an address
that is 8-aligned but NOT 16-aligned — so the claimed 16-byte-alignment
invariant is false (`align_of::<ListNode>()` is 8, not 16). -/
theorem c9_counterexample :
    llInit = [(HEAP_BASE, HEAP_LENGTH)] ∧
    (llAlloc llInit ⟨24, 8⟩).2 = [(HEAP_BASE + 24, HEAP_LENGTH - 24)] ∧
    (HEAP_BASE + 24) % 16 = 8 ∧ (HEAP_BASE + 24) % 8 = 0 ∧
    16 ≤ HEAP_LENGTH - 24 := by
  decide

/-- C9 (amended): every region on the back-end free list starts at an
8-aligned address (`align_of::<ListNode>() == 8`) and is at least 16 bytes
long (`size_of::<ListNode>() == 16`) — exactly the two assertions of
`add_free_region`.  The invariant holds after `init`; it is preserved by
`alloc` (the excess split) for any layout with power-of-two alignment, by
`dealloc` of any 8-aligned pointer, and by `scrap_free_blocks` whenever the
cached block addresses are 8-aligned. -/
theorem free_list_invariant (fl : List (Nat × Nat)) (layout : Layout) (k : Nat)
    (hpow : layout.align = 2 ^ k) (hfl : freeListOk fl) :
    freeListOk llInit ∧
    freeListOk (llAlloc fl layout).2 ∧
    (∀ ptr, ptr % 8 = 0 → freeListOk (llDealloc fl ptr layout)) ∧
    (∀ a : FixedSizeBlockAllocator, a.fallback = fl →
      (∀ i < 9, ∀ b ∈ a.heads.getD i [], b % 8 = 0) →
      ∀ a3, scrap_free_blocks a layout = some a3 → freeListOk a3.fallback) := by
  refine ⟨?_, llAlloc_preserves fl layout k hpow hfl, ?_, ?_⟩
  · intro r hr
    rw [show llInit = [(HEAP_BASE, HEAP_LENGTH)] from rfl, List.mem_singleton] at hr
    subst hr
    exact ⟨by decide, by decide⟩
  · intro ptr hptr r hr
    rcases List.mem_cons.mp hr with rfl | hr2
    · exact ⟨hptr, adjust_size_ge layout⟩
    · exact hfl r hr2
  · intro a hafb hbl a3 hscrap
    simp only [scrap_free_blocks] at hscrap
    cases hidx : get_index layout with
    | none =>
      rw [hidx] at hscrap
      exact absurd hscrap (by simp)
    | some index =>
      rw [hidx] at hscrap
      dsimp only at hscrap
      obtain ⟨hi9, _⟩ := get_index_bound layout index hidx
      cases hloop : scrapLoop a.heads a.fallback
          (List.range' (index + 1) (BLOCK_SIZES.length - (index + 1))) with
      | none => rw [hloop] at hscrap; exact absurd hscrap (by simp)
      | some hf =>
        obtain ⟨hds, f⟩ := hf
        rw [hloop] at hscrap
        simp only [Option.some.injEq] at hscrap
        subst hscrap
        have hrange : ∀ j, j ∈ List.range' (index + 1) (BLOCK_SIZES.length - (index + 1)) →
            0 < j ∧ j < 9 := by
          intro j hj
          rw [List.mem_range'_1, show BLOCK_SIZES.length = 9 from rfl] at hj
          omega
        refine scrapLoop_sound a.heads a.fallback _ ?_ ?_ ?_ hds f hloop
        · intro j hj
          exact bs_ge16 ⟨j, (hrange j hj).2⟩ (hrange j hj).1
        · intro j hj
          exact hbl j (hrange j hj).2
        · rw [hafb]
          exact hfl

/-- Witness for `free_list_invariant`: the post-init free list with the
`Layout(24, 8)` allocation of the counterexample — the resulting split
region is 8-aligned and at least 16 bytes, so the invariant (and hence the
`add_free_region` assertions) hold. -/
theorem free_list_invariant_witness :
    freeListOk (llAlloc llInit ⟨24, 8⟩).2 :=
  (free_list_invariant llInit ⟨24, 8⟩ 3 (by decide)
    (by unfold freeListOk llInit add_free_region; decide)).2.1

/-! ### `ArrayQueue`, from `src/kernel/src/utils/atomic.rs`

The bounded ring buffer.  The buffer is a list of `Option` slots, `head`
and `tail` the two atomic cursors.  Each `push`/`pop` is modelled as one
atomic step (the load, the successful compare-exchange and the slot write
of one call taken together); with a single producer and a single consumer
this is the granularity at which the queue is used, and the CAS-retry loop
of the source is the identity under it (a weak-CAS failure merely reloads
the cursor and re-runs the same emptiness/fullness check). -/

structure ArrayQueue (α : Type) where
  buffer : List (Option α)
  size : Nat
  head : Nat
  tail : Nat
deriving DecidableEq, Repr

/-- `ArrayQueue::read`: the slot at `index`. -/
def ArrayQueue.read {α : Type} (q : ArrayQueue α) (index : Nat) : Option α :=
  q.buffer.getD index none

/-- `ArrayQueue::new` (allocation success case): all slots `None`, both
cursors zero. -/
def ArrayQueue.new (α : Type) (size : Nat) : ArrayQueue α :=
  ⟨List.replicate size none, size, 0, 0⟩

/-- `ArrayQueue::is_empty`: cursors equal and the head slot vacant. -/
def ArrayQueue.is_empty {α : Type} (q : ArrayQueue α) : Bool :=
  q.head == q.tail && (q.read q.head).isNone

/-- `ArrayQueue::is_full`: cursors equal and the head slot occupied. -/
def ArrayQueue.is_full {α : Type} (q : ArrayQueue α) : Bool :=
  q.head == q.tail && !(q.read q.head).isNone

/-- `ArrayQueue::push`: fail when full, else advance `tail` modulo `size`
and write the value into the old tail slot. -/
def ArrayQueue.push {α : Type} (q : ArrayQueue α) (value : α) : ArrayQueue α × Bool :=
  if q.is_full then (q, false)
  else
    ({ q with
        tail := (q.tail + 1) % q.size,
        buffer := q.buffer.set q.tail (some value) }, true)

/-- `ArrayQueue::pop`: nothing when empty, else advance `head` modulo
`size`, take the old head slot's value and clear the slot. -/
def ArrayQueue.pop {α : Type} (q : ArrayQueue α) : ArrayQueue α × Option α :=
  if q.is_empty then (q, none)
  else
    ({ q with
        head := (q.head + 1) % q.size,
        buffer := q.buffer.set q.head none }, q.read q.head)

/-- The ring-buffer invariant with abstract element count `k`: the buffer
backs `size` slots, both cursors are in range, `tail` sits `k` slots past
`head` (modulo `size`), and exactly the first `k` slots counted from
`head` are occupied. -/
def ArrayQueue.invK {α : Type} (q : ArrayQueue α) (k : Nat) : Prop :=
  q.buffer.length = q.size ∧ q.head < q.size ∧ q.tail < q.size ∧ k ≤ q.size ∧
  q.tail = (q.head + k) % q.size ∧
  ∀ j < q.size, ((q.buffer.getD ((q.head + j) % q.size) none).isSome = true ↔ j < k)

/-- The abstract FIFO contents: the `k` values starting at `head`. -/
def ArrayQueue.toList {α : Type} (q : ArrayQueue α) (k : Nat) : List α :=
  (List.range k).filterMap (fun j => q.buffer.getD ((q.head + j) % q.size) none)

theorem mod_add_inj {n a j k : Nat} (hj : j < n) (hk : k < n)
    (h : (a + j) % n = (a + k) % n) : j = k := by
  have h5 : Nat.ModEq n j k := Nat.ModEq.add_left_cancel (Nat.ModEq.refl a) h
  have h6 : j % n = k % n := h5
  rwa [Nat.mod_eq_of_lt hj, Nat.mod_eq_of_lt hk] at h6

theorem getD_set_self {α : Type} (l : List α) (i : Nat) (a d : α) (h : i < l.length) :
    (l.set i a).getD i d = a := by
  rw [List.getD_eq_getElem?_getD, List.getElem?_set_self h]
  rfl

theorem getD_set_ne {α : Type} (l : List α) (i j : Nat) (a d : α) (h : i ≠ j) :
    (l.set i a).getD j d = l.getD j d := by
  rw [List.getD_eq_getElem?_getD, List.getElem?_set_ne h, ← List.getD_eq_getElem?_getD]

theorem aq_read0 {α : Type} (q : ArrayQueue α) (k : Nat) (hinv : q.invK k) :
    (q.buffer.getD q.head none).isSome = true ↔ 0 < k := by
  obtain ⟨hlen, hh, ht, hk, htail, hslots⟩ := hinv
  have hsz : 0 < q.size := Nat.lt_of_le_of_lt (Nat.zero_le _) hh
  have h0 := hslots 0 hsz
  rwa [Nat.add_zero, Nat.mod_eq_of_lt hh] at h0

theorem aq_empty_iff {α : Type} (q : ArrayQueue α) (k : Nat) (hinv : q.invK k) :
    q.is_empty = true ↔ k = 0 := by
  have hread := aq_read0 q k hinv
  obtain ⟨hlen, hh, ht, hk, htail, hslots⟩ := hinv
  simp only [ArrayQueue.is_empty, Bool.and_eq_true, beq_iff_eq,
    Option.isNone_iff_eq_none, ArrayQueue.read]
  constructor
  · rintro ⟨h1, h2⟩
    by_contra hk0
    have h3 := hread.mpr (Nat.pos_of_ne_zero hk0)
    rw [h2] at h3
    simp at h3
  · intro hk0
    subst hk0
    refine ⟨by rw [htail, Nat.add_zero, Nat.mod_eq_of_lt hh], ?_⟩
    have h2 : ¬ (q.buffer.getD q.head none).isSome = true := by
      rw [hread]
      omega
    exact Option.not_isSome_iff_eq_none.mp h2

theorem aq_full_iff {α : Type} (q : ArrayQueue α) (k : Nat) (hinv : q.invK k) :
    q.is_full = true ↔ k = q.size := by
  have hread := aq_read0 q k hinv
  obtain ⟨hlen, hh, ht, hk, htail, hslots⟩ := hinv
  have hsz : 0 < q.size := Nat.lt_of_le_of_lt (Nat.zero_le _) hh
  simp only [ArrayQueue.is_full, Bool.and_eq_true, beq_iff_eq, Bool.not_eq_true',
    ArrayQueue.read]
  constructor
  · rintro ⟨h1, h2⟩
    have h3 : (q.buffer.getD q.head none).isSome = true := by
      cases hopt : q.buffer.getD q.head none with
      | none => rw [hopt] at h2; simp at h2
      | some a => rfl
    have hkpos : 0 < k := hread.mp h3
    by_contra hne
    have hklt : k < q.size := lt_of_le_of_ne hk hne
    have h4 : (q.head + 0) % q.size = (q.head + k) % q.size := by
      rw [Nat.add_zero, Nat.mod_eq_of_lt hh, ← htail]
      exact h1
    have h5 := mod_add_inj hsz hklt h4
    omega
  · intro hk0
    subst hk0
    refine ⟨?_, ?_⟩
    · rw [htail, Nat.add_mod_right, Nat.mod_eq_of_lt hh]
    · have h3 := hread.mpr hsz
      cases hopt : q.buffer.getD q.head none with
      | none => rw [hopt] at h3; simp at h3
      | some a => simp

theorem aq_push_eq {α : Type} (q : ArrayQueue α) (v : α) (h : q.is_full = false) :
    q.push v =
      ({ q with
          tail := (q.tail + 1) % q.size,
          buffer := q.buffer.set q.tail (some v) }, true) := by
  simp [ArrayQueue.push, h]

theorem aq_pop_eq {α : Type} (q : ArrayQueue α) (h : q.is_empty = false) :
    q.pop =
      ({ q with
          head := (q.head + 1) % q.size,
          buffer := q.buffer.set q.head none }, q.read q.head) := by
  simp [ArrayQueue.pop, h]

theorem aq_push_inv {α : Type} (q : ArrayQueue α) (v : α) (k : Nat)
    (hinv : q.invK k) (hlt : k < q.size) :
    (q.push v).1.invK (k + 1) ∧ (q.push v).1.toList (k + 1) = q.toList k ++ [v] := by
  have hfull : q.is_full = false := by
    cases hf : q.is_full
    · rfl
    · exact absurd ((aq_full_iff q k hinv).mp hf) (by omega)
  rw [aq_push_eq q v hfull]
  obtain ⟨hlen, hh, ht, hk, htail, hslots⟩ := hinv
  have hsz : 0 < q.size := Nat.lt_of_le_of_lt (Nat.zero_le _) hh
  constructor
  · refine ⟨?_, ?_, ?_, ?_, ?_, ?_⟩
    · simp [hlen]
    · exact hh
    · exact Nat.mod_lt _ hsz
    · show k + 1 ≤ q.size
      omega
    · show (q.tail + 1) % q.size = (q.head + (k + 1)) % q.size
      rw [htail, Nat.mod_add_mod, ← Nat.add_assoc]
    · intro j hj
      have hj2 : j < q.size := hj
      show ((q.buffer.set q.tail (some v)).getD ((q.head + j) % q.size) none).isSome
          = true ↔ j < k + 1
      by_cases hjk : j = k
      · subst hjk
        rw [← htail, getD_set_self _ _ _ _ (by rw [hlen]; exact ht)]
        simp
      · have hne : q.tail ≠ (q.head + j) % q.size := by
          rw [htail]
          intro hcontra
          exact hjk (mod_add_inj hlt hj2 hcontra).symm
        rw [getD_set_ne _ _ _ _ _ hne, hslots j hj2]
        omega
  · show (List.range (k + 1)).filterMap
        (fun j => (q.buffer.set q.tail (some v)).getD ((q.head + j) % q.size) none) =
      q.toList k ++ [v]
    rw [List.range_succ, List.filterMap_append]
    congr 1
    · apply List.filterMap_congr
      intro j hj
      have hjk : j < k := List.mem_range.mp hj
      have hjs : j < q.size := by omega
      have hne : q.tail ≠ (q.head + j) % q.size := by
        rw [htail]
        intro hcontra
        have h5 := mod_add_inj hlt hjs hcontra
        omega
      rw [getD_set_ne _ _ _ _ _ hne]
    · have hfk : (q.buffer.set q.tail (some v)).getD ((q.head + k) % q.size) none
          = some v := by
        rw [← htail, getD_set_self _ _ _ _ (by rw [hlen]; exact ht)]
      simp only [List.filterMap_cons, List.filterMap_nil]
      rw [hfk]

theorem aq_pop_inv {α : Type} (q : ArrayQueue α) (k : Nat)
    (hinv : q.invK k) (hpos : 0 < k) :
    (q.pop).1.invK (k - 1) ∧ (q.pop).2 = (q.toList k).head? ∧
      (q.pop).1.toList (k - 1) = (q.toList k).tail := by
  have hread := aq_read0 q k hinv
  have hempty : q.is_empty = false := by
    cases he : q.is_empty
    · rfl
    · exact absurd ((aq_empty_iff q k hinv).mp he) (by omega)
  rw [aq_pop_eq q hempty]
  obtain ⟨hlen, hh, ht, hk, htail, hslots⟩ := hinv
  have hsz : 0 < q.size := Nat.lt_of_le_of_lt (Nat.zero_le _) hh
  obtain ⟨a, ha⟩ := Option.isSome_iff_exists.mp (hread.mpr hpos)
  have htl : q.toList k = a :: (List.range (k - 1)).filterMap
      (fun j => q.buffer.getD ((q.head + (j + 1)) % q.size) none) := by
    show (List.range k).filterMap _ = _
    have hf0 : q.buffer.getD ((q.head + 0) % q.size) none = some a := by
      rw [Nat.add_zero, Nat.mod_eq_of_lt hh]
      exact ha
    rw [show k = (k - 1) + 1 by omega, List.range_succ_eq_map]
    simp only [List.filterMap_cons, List.filterMap_map, hf0]
    rfl
  have hidx : ∀ j, ((q.head + 1) % q.size + j) % q.size = (q.head + (j + 1)) % q.size := by
    intro j
    rw [Nat.mod_add_mod]
    congr 1
    omega
  refine ⟨?_, ?_, ?_⟩
  · refine ⟨?_, ?_, ?_, ?_, ?_, ?_⟩
    · simp [hlen]
    · exact Nat.mod_lt _ hsz
    · exact ht
    · show k - 1 ≤ q.size
      omega
    · show q.tail = ((q.head + 1) % q.size + (k - 1)) % q.size
      rw [Nat.mod_add_mod, htail]
      congr 1
      omega
    · intro j hj
      have hj2 : j < q.size := hj
      show ((q.buffer.set q.head none).getD
          (((q.head + 1) % q.size + j) % q.size) none).isSome = true ↔ j < k - 1
      rw [hidx j]
      by_cases hj1 : j + 1 < q.size
      · have hne : q.head ≠ (q.head + (j + 1)) % q.size := by
          intro hcontra
          have h0 : (q.head + 0) % q.size = (q.head + (j + 1)) % q.size := by
            rw [Nat.add_zero, Nat.mod_eq_of_lt hh]
            exact hcontra
          have h5 := mod_add_inj hsz hj1 h0
          omega
        rw [getD_set_ne _ _ _ _ _ hne, hslots (j + 1) hj1]
        omega
      · have hidx2 : (q.head + (j + 1)) % q.size = q.head := by
          rw [show j + 1 = q.size by omega, Nat.add_mod_right, Nat.mod_eq_of_lt hh]
        rw [hidx2, getD_set_self _ _ _ _ (by rw [hlen]; exact hh)]
        simp only [Option.isSome_none, Bool.false_eq_true, false_iff]
        omega
  · show q.read q.head = (q.toList k).head?
    rw [htl, ArrayQueue.read, ha]
    rfl
  · show (List.range (k - 1)).filterMap
        (fun j => (q.buffer.set q.head none).getD
          (((q.head + 1) % q.size + j) % q.size) none) = (q.toList k).tail
    rw [htl]
    apply List.filterMap_congr
    intro j hj
    have hjk : j < k - 1 := List.mem_range.mp hj
    rw [hidx j]
    have hne : q.head ≠ (q.head + (j + 1)) % q.size := by
      intro hcontra
      have h0 : (q.head + 0) % q.size = (q.head + (j + 1)) % q.size := by
        rw [Nat.add_zero, Nat.mod_eq_of_lt hh]
        exact hcontra
      have h5 := mod_add_inj hsz (by omega : j + 1 < q.size) h0
      omega
    rw [getD_set_ne _ _ _ _ _ hne]

/-- C7: under the ring-buffer invariant with element count `k`:
`is_empty` answers `k = 0` (head meets tail on a vacant slot) and `is_full`
answers `k = size` (head meets tail on an occupied slot); `push` fails
exactly when the queue is full and `pop` returns nothing exactly when it is
empty; and the operations refine a FIFO list — `push` appends the value to
the abstract contents, `pop` removes and returns the front — so with one
producer and one consumer (operations modelled as atomic steps) values are
popped in push order. -/
theorem array_queue_fifo (α : Type) (q : ArrayQueue α) (v : α) (k : Nat)
    (hinv : q.invK k) :
    (q.is_empty = true ↔ k = 0) ∧
    (q.is_full = true ↔ k = q.size) ∧
    ((q.push v).2 = false ↔ k = q.size) ∧
    ((q.pop).2 = none ↔ k = 0) ∧
    (k < q.size →
      (q.push v).1.invK (k + 1) ∧ (q.push v).1.toList (k + 1) = q.toList k ++ [v]) ∧
    (0 < k →
      (q.pop).1.invK (k - 1) ∧ (q.pop).2 = (q.toList k).head? ∧
      (q.pop).1.toList (k - 1) = (q.toList k).tail) := by
  refine ⟨aq_empty_iff q k hinv, aq_full_iff q k hinv, ?_, ?_,
    fun hlt => aq_push_inv q v k hinv hlt, fun hpos => aq_pop_inv q k hinv hpos⟩
  · cases hf : q.is_full
    · rw [aq_push_eq q v hf]
      constructor
      · intro h
        exact absurd h (by simp)
      · intro h
        have h2 := (aq_full_iff q k hinv).mpr h
        rw [hf] at h2
        exact absurd h2 (by simp)
    · have hk0 := (aq_full_iff q k hinv).mp hf
      simp [ArrayQueue.push, hf, hk0]
  · constructor
    · intro h
      by_contra hk0
      have hpos : 0 < k := Nat.pos_of_ne_zero hk0
      have hempty : q.is_empty = false := by
        cases he : q.is_empty
        · rfl
        · exact absurd ((aq_empty_iff q k hinv).mp he) (by omega)
      rw [aq_pop_eq q hempty] at h
      have h3 := (aq_read0 q k hinv).mpr hpos
      simp only [ArrayQueue.read] at h
      rw [h] at h3
      simp at h3
    · intro hk0
      have he : q.is_empty = true := (aq_empty_iff q k hinv).mpr hk0
      simp [ArrayQueue.pop, he]

/-- Witness for `array_queue_fifo` on a 3-slot queue holding `[1, 2]`
(head 0, tail 2): it is neither empty nor full, and popping returns the
first pushed value `1`. -/
theorem array_queue_fifo_witness :
    ((⟨[some 1, some 2, none], 3, 0, 2⟩ : ArrayQueue Nat).is_empty = true ↔ (2 : Nat) = 0) ∧
    (((⟨[some 1, some 2, none], 3, 0, 2⟩ : ArrayQueue Nat).pop).2 =
      ((⟨[some 1, some 2, none], 3, 0, 2⟩ : ArrayQueue Nat).toList 2).head?) := by
  have h := array_queue_fifo Nat ⟨[some 1, some 2, none], 3, 0, 2⟩ 7 2
    (by unfold ArrayQueue.invK; decide)
  exact ⟨h.1, (h.2.2.2.2.2 (by decide)).2.1⟩

end OsSpec
